import Mathlib

/-!
# soh::save: a shallow embedding of `save.h` and `save.cpp`

The development follows the two source files of the `soh::save` namespace:

* `writer`, the growable output buffer (`save.h`, lines 17-109);
* the type descriptors `TypeBase`, `NumericType`, `ArrayType`, `PointerType`,
  `StructTypeDef` (`save.h`, lines 111-311);
* `recurseType`, `writeSchema`, `writeFile` (`save.cpp`, lines 34-95).

Conventions of the embedding.

* A `char` is a natural number, a `std::string` is a list of them.  A
  `const char*` obtained from `c_str()` is the list up to the first NUL.
* `int` values are integers.  The members of `writer` are given twice.  The
  definitions under the names of the source (`writer.ensure_size`, ...) compute
  with exact integers: they describe the runs in which no `int` computation
  overflows, and only the bytes that reach the buffer are reduced modulo
  `2 ^ 32`.  The definitions with the suffix `_i32` reduce the result of every
  `int` computation to 32 bits (`wrap_int`); the two agree while the size asked
  for stays at most `sizeLimit`.  `getSize` multiplies in 32 bits.
* A pointer to a descriptor is an index into an object store (`Heap`); an index
  outside the store stands for a null or dangling pointer.
* Undefined behaviour (a store outside the allocation, a dereference of an
  invalid pointer, the read of an indeterminate value) and exhausted fuel both
  make a function return `none`.
* The host is described by its byte order; `sizeof(void*)` is 8 and
  `intptr_t` is `int64_t` (an LP64 or LLP64 host), so `w << intptr_t(p)`
  selects `operator<<(int64_t)`.
-/

namespace soh.save

/-! ## Host, bytes and strings -/

/-- Byte order of the machine the code runs on. -/
structure Host where
  little : Bool
deriving DecidableEq, Repr

/-- The constant `VERSION` of `save.h`, line 11. -/
def VERSION : Int := 0

/-- The value of `sizeof(void*)` on the modelled hosts. -/
def sizeof_voidp : Nat := 8

/-- Characters of an ASCII literal, as `char` values. -/
def ascii (s : String) : List Nat := s.toList.map Char.toNat

/-- The view `std::string::c_str()` gives to a reader of `const char*`:
the characters before the first NUL. -/
def c_str (s : List Nat) : List Nat := s.takeWhile (fun c => c != 0)

/-- The `width` low-order bytes of `v`, least significant first. -/
def leBytes : Nat → Nat → List Nat
  | 0, _ => []
  | k + 1, v => v % 256 :: leBytes k (v / 256)

/-- The value an `int` holds after a computation or a conversion whose exact
result is `n`: the low 32 bits of `n`, read in two's complement.  (Signed
overflow is undefined in C++; the builds of the repository wrap around.) -/
def wrap_int (n : Int) : Int := (n + 2147483648) % 4294967296 - 2147483648

/-- Object representation of a two's complement integer of `width` bytes,
in the order the host keeps it in memory (what `reinterpret_cast<char*>(&n)`
reads). -/
def objectRep (h : Host) (width : Nat) (n : Int) : List Nat :=
  let le := leBytes width (n % (2 : Int) ^ (8 * width)).toNat
  if h.little then le else le.reverse

/-- The probe `littleEndian()` of `save.h`, lines 12-15: the first byte of the
`int` 1 is 1. -/
def littleEndian (h : Host) : Bool := (objectRep h 4 1)[0]? == some 1

/-- Rendering of `%d` by `sprintf`. -/
def sprintf_d (n : Int) : List Nat := ascii (toString n)

/-- The order `std::less<std::string>` puts on keys of a `std::map`: bytewise
lexicographic, a proper initial segment first. -/
def strLt : List Nat → List Nat → Bool
  | [], [] => false
  | [], _ :: _ => true
  | _ :: _, [] => false
  | a :: as, b :: bs => decide (a < b) || (a == b && strLt as bs)

/-! ## `class writer` -/

/-- The data members of `writer` (`save.h`, lines 105-108).  `buf_` is `none`
for `nullptr`; a cell of an allocation is `none` until a byte is stored in
it. -/
structure writer where
  buf_ : Option (List (Option Nat)) := none
  size_ : Int := 0
  capacity_ : Int := 0
  cur_ : Int := 0
deriving DecidableEq, Repr

namespace writer

/-- The call `malloc(n)` with an `int` argument: a negative `n` converts to a
huge `size_t` and the allocation fails with `nullptr`. -/
def malloc (n : Int) : Option (List (Option Nat)) :=
  if n < 0 then none else some (List.replicate n.toNat none)

/-- The call `memcpy(dst, src, n)` into a fresh allocation `dst`. -/
def memcpy (dst src : List (Option Nat)) (n : Int) : Option (List (Option Nat)) :=
  if 0 ≤ n ∧ n.toNat ≤ src.length ∧ n.toNat ≤ dst.length then
    some (src.take n.toNat ++ dst.drop n.toNat)
  else none

/-- The member `ensure_size` of `save.h`, lines 90-104, with exact integers:
what the member does as long as `((size + 1) >> 1) + (size + 1)` is an `int`,
that is for `size` up to `sizeLimit`.  The member with the `int` arithmetic of
the machine is `ensure_size_i32` below. -/
def ensure_size (w : writer) (size : Int) : Option writer :=
  if size < w.capacity_ then
    some { w with size_ := size }
  else
    let capacity := ((size + 1) >>> (1 : Nat)) + (size + 1)
    match w.buf_ with
    | none =>
      some { buf_ := malloc capacity, size_ := size, capacity_ := capacity, cur_ := w.cur_ }
    | some old =>
      match malloc capacity with
      | none => none
      | some fresh =>
        match memcpy fresh old w.size_ with
        | none => none
        | some b => some { buf_ := some b, size_ := size, capacity_ := capacity, cur_ := w.cur_ }

/-- The member `grow_size` of `save.h`, lines 87-89, with exact integers: what
the member does as long as `size_ + n` is an `int`.  The member with the `int`
arithmetic of the machine is `grow_size_i32` below. -/
def grow_size (w : writer) (n : Int) : Option writer :=
  w.ensure_size (w.size_ + n)

/-- One store `buf_[cur_++] = c`. -/
def put (w : writer) (c : Nat) : Option writer :=
  match w.buf_ with
  | none => none
  | some b =>
    if 0 ≤ w.cur_ ∧ w.cur_.toNat < b.length then
      some { w with buf_ := some (b.set w.cur_.toNat (some c)), cur_ := w.cur_ + 1 }
    else none

/-- A loop of stores `buf_[cur_++] = c[i]` over the bytes `cs`. -/
def putAll (w : writer) (cs : List Nat) : Option writer :=
  cs.foldlM put w

/-- The member `operator<<(int)` of `save.h`, lines 47-55. -/
def shl_int (h : Host) (w : writer) (n : Int) : Option writer :=
  (w.grow_size 4).bind fun w1 => w1.putAll (objectRep h 4 n)

/-- The member `operator<<(int64_t)` of `save.h`, lines 56-63: the first
`sizeof(void*)` bytes of the object representation of `n`. -/
def shl_int64 (h : Host) (w : writer) (n : Int) : Option writer :=
  (w.grow_size sizeof_voidp).bind fun w1 => w1.putAll ((objectRep h 8 n).take sizeof_voidp)

/-- The member `operator<<(const std::string&)` of `save.h`, lines 64-71. -/
def shl_string (h : Host) (w : writer) (s : List Nat) : Option writer :=
  (shl_int h w s.length).bind fun w1 =>
    (w1.grow_size s.length).bind fun w2 => w2.putAll s

/-- The member `align` of `save.h`, lines 72-76; `%` on `int` truncates, and a
zero divisor is undefined. -/
def align (w : writer) (n : Int) : Option writer :=
  if n = 0 then none else w.grow_size (n - Int.tmod w.cur_ n)

/-- The member `dump` of `save.h`, lines 77-84, reading the bytes at `ptr` from
the memory `mem`. -/
def dump (mem : Nat → Nat) (w : writer) (ptr : Nat) (size : Int) : Option writer :=
  (w.grow_size size).bind fun w1 =>
    w1.putAll ((List.range size.toNat).map fun i => mem (ptr + i))

/-! ### The members with `int` of 32 bits

The members above compute sizes with exact integers.  The members below follow
the same lines of `save.h` and reduce every `int` result to 32 bits.  A store
`buf_[cur_++]` that is in bounds has `cur_` below the length of an allocation
of at most `INT_MAX` bytes, so `put` and `putAll` serve both. -/

/-- The member `ensure_size` of `save.h`, lines 90-104, in 32 bits: `size + 1`,
the shift (arithmetic on a negative value) and the sum are `int` results, and
`malloc` gets the `int` capacity. -/
def ensure_size_i32 (w : writer) (size : Int) : Option writer :=
  if size < w.capacity_ then
    some { w with size_ := size }
  else
    let capacity := wrap_int ((wrap_int (size + 1) >>> (1 : Nat)) + wrap_int (size + 1))
    match w.buf_ with
    | none =>
      some { buf_ := malloc capacity, size_ := size, capacity_ := capacity, cur_ := w.cur_ }
    | some old =>
      match malloc capacity with
      | none => none
      | some fresh =>
        match memcpy fresh old w.size_ with
        | none => none
        | some b => some { buf_ := some b, size_ := size, capacity_ := capacity, cur_ := w.cur_ }

/-- The member `grow_size` of `save.h`, lines 87-89, in 32 bits. -/
def grow_size_i32 (w : writer) (n : Int) : Option writer :=
  w.ensure_size_i32 (wrap_int (w.size_ + n))

/-- The member `operator<<(int)` of `save.h`, lines 47-55, in 32 bits. -/
def shl_int_i32 (h : Host) (w : writer) (n : Int) : Option writer :=
  (w.grow_size_i32 4).bind fun w1 => w1.putAll (objectRep h 4 n)

/-- The member `operator<<(int64_t)` of `save.h`, lines 56-63, in 32 bits. -/
def shl_int64_i32 (h : Host) (w : writer) (n : Int) : Option writer :=
  (w.grow_size_i32 sizeof_voidp).bind fun w1 =>
    w1.putAll ((objectRep h 8 n).take sizeof_voidp)

/-- The member `operator<<(const std::string&)` of `save.h`, lines 64-71, in
32 bits: `int(s.size())` and the argument of `grow_size` are conversions of a
`size_t` to `int`.  The loop stores every character; its `int` counter is
exact for strings shorter than `2 ^ 31`. -/
def shl_string_i32 (h : Host) (w : writer) (s : List Nat) : Option writer :=
  (shl_int_i32 h w (wrap_int s.length)).bind fun w1 =>
    (w1.grow_size_i32 (wrap_int s.length)).bind fun w2 => w2.putAll s

/-- The member `align` of `save.h`, lines 72-76, in 32 bits. -/
def align_i32 (w : writer) (n : Int) : Option writer :=
  if n = 0 then none else w.grow_size_i32 (wrap_int (n - Int.tmod w.cur_ n))

/-- The member `dump` of `save.h`, lines 77-84, in 32 bits. -/
def dump_i32 (mem : Nat → Nat) (w : writer) (ptr : Nat) (size : Int) : Option writer :=
  (w.grow_size_i32 size).bind fun w1 =>
    w1.putAll ((List.range size.toNat).map fun i => mem (ptr + i))

/-- The cells of the buffer below the write cursor. -/
def bytes (w : writer) : List (Option Nat) :=
  match w.buf_ with
  | none => []
  | some b => b.take w.cur_.toNat

/-- The state invariant of a writer: the cursor is within the size, and the
size is within the allocation; a writer without allocation has size and
capacity zero. -/
def Ok (w : writer) : Prop :=
  0 ≤ w.cur_ ∧ w.cur_ ≤ w.size_ ∧
    match w.buf_ with
    | none => w.size_ = 0 ∧ w.capacity_ = 0
    | some b => w.size_ < w.capacity_ ∧ w.capacity_ = b.length

end writer

/-! ## Type descriptors -/

/-- The enumeration `Type` of `save.h`, lines 112-127. -/
inductive Type_ where
  | INT8 | INT16 | INT32 | INT64
  | UINT8 | UINT16 | UINT32 | UINT64
  | FLOAT32 | FLOAT64
  | STRUCT | ARRAY | POINTER | FUNCPTR
deriving DecidableEq, Repr

/-- The constant `UNSIGNED_BIT` of `save.h`, line 111. -/
def UNSIGNED_BIT : Nat := 32

/-- The enumerator values, `int(type)`. -/
def Type_.toNat : Type_ → Nat
  | .INT8 => 0
  | .INT16 => 1
  | .INT32 => 2
  | .INT64 => 3
  | .UINT8 => 0 ||| UNSIGNED_BIT
  | .UINT16 => 1 ||| UNSIGNED_BIT
  | .UINT32 => 2 ||| UNSIGNED_BIT
  | .UINT64 => 3 ||| UNSIGNED_BIT
  | .FLOAT32 => 4
  | .FLOAT64 => 5
  | .STRUCT => 6
  | .ARRAY => 7
  | .POINTER => 8
  | .FUNCPTR => 9

/-- The struct `StructTypeDef::Member` of `save.h`, lines 258-262; `type` is a
pointer into the object store. -/
structure Member where
  name : List Nat
  offset : Int
  type : Nat
deriving DecidableEq, Repr

/-- A descriptor object.  `Base` is an object of the class `TypeBase` itself;
the other four are the classes derived from it, with their data members.  The
private members `size` and `name` of a `NumericType` are fixed by its
constructor from `type` and are computed on demand below. -/
inductive TypeBase where
  | Base (type : Type_)
  | NumericType (type : Type_)
  | ArrayType (dimen : Int) (subType : Nat) (name : List Nat)
  | PointerType (subType : Nat) (name : List Nat)
  | StructTypeDef (name : List Nat) (size : Int) (members : List Member)
deriving DecidableEq, Repr

/-- The object store: a `TypeBase*` is an index into it. -/
abbrev Heap := List TypeBase

/-- The member `size` a `NumericType` gets from its constructor, `save.h`,
lines 148-164: the switch is over `int(type) & ~UNSIGNED_BIT`, and `size`
keeps its initial `-1` when no case matches. -/
def NumericType_size (t : Type_) : Int :=
  match t.toNat &&& (0xFFFFFFFF - UNSIGNED_BIT) with
  | 0 => 1
  | 1 => 2
  | 2 => 4
  | 4 => 4
  | 3 => 8
  | 5 => 8
  | _ => -1

/-- The member `name` a `NumericType` gets from `updateName`, `save.h`, lines
167-200; it stays empty when no case matches. -/
def updateName : Type_ → List Nat
  | .INT8 => ascii "int8"
  | .INT16 => ascii "int16"
  | .INT32 => ascii "int32"
  | .INT64 => ascii "int64"
  | .UINT8 => ascii "int8"
  | .UINT16 => ascii "int16"
  | .UINT32 => ascii "int32"
  | .UINT64 => ascii "int64"
  | .FLOAT32 => ascii "float32"
  | .FLOAT64 => ascii "float64"
  | _ => []

namespace TypeBase

/-- The data member `TypeBase::type`. -/
def type : TypeBase → Type_
  | Base t => t
  | NumericType t => t
  | ArrayType _ _ _ => .ARRAY
  | PointerType _ _ => .POINTER
  | StructTypeDef _ _ _ => .STRUCT

/-- The virtual `getName()`: the `c_str()` of the stored name, `"error"` for
the base class. -/
def getName : TypeBase → List Nat
  | Base _ => ascii "error"
  | NumericType t => c_str (updateName t)
  | ArrayType _ _ name => c_str name
  | PointerType _ name => c_str name
  | StructTypeDef name _ _ => c_str name

end TypeBase

/-- The virtual `getSize()`.  `ArrayType::getSize` asks its element, so the
recursion follows `subType` pointers and takes fuel; its product of two `int`
values is an `int` (`save.h`, line 221). -/
def getSize (H : Heap) : Nat → Nat → Option Int
  | 0, _ => none
  | fuel + 1, p =>
    match H[p]? with
    | none => none
    | some (.Base _) => some (-1)
    | some (.NumericType t) => some (NumericType_size t)
    | some (.ArrayType dimen subType _) => (getSize H fuel subType).map fun s => wrap_int (s * dimen)
    | some (.PointerType _ _) => some sizeof_voidp
    | some (.StructTypeDef _ size _) => some size

/-- The constructor `ArrayType(dimen, subtype)` of `save.h`, lines 214-218. -/
def ArrayType_new (H : Heap) (dimen : Int) (subtype : Nat) : Option TypeBase :=
  H[subtype]?.map fun sub =>
    .ArrayType dimen subtype (sub.getName ++ (ascii "[" ++ sprintf_d dimen ++ ascii "]"))

/-- The constructor `PointerType(subtype)` of `save.h`, lines 237-239. -/
def PointerType_new (H : Heap) (subtype : Nat) : Option TypeBase :=
  H[subtype]?.map fun sub => .PointerType subtype (ascii "*" ++ sub.getName)

/-- The constructor `StructTypeDef(name, size)` of `save.h`, lines 266-267;
`name` arrives as a `const char*`. -/
def StructTypeDef_new (name : List Nat) (size : Int) : TypeBase :=
  .StructTypeDef (c_str name) size []

/-- The body of the loop in `StructTypeDef::serialize`, `save.h`, lines
289-291. -/
def serializeMember (h : Host) (H : Heap) (w : writer) (m : Member) : Option writer :=
  (writer.shl_string h w m.name).bind fun w1 =>
    H[m.type]?.bind fun t =>
      (writer.shl_string h w1 t.getName).bind fun w2 =>
        writer.shl_int h w2 m.offset

/-- The virtual `serialize(w)`: `TypeBase::serialize` (`save.h`, lines
142-144) for the base class and `NumericType`, and the overriders of
`ArrayType` (226-230), `PointerType` (246-249) and `StructTypeDef`
(283-293). -/
def serialize (h : Host) (H : Heap) (obj : TypeBase) (w : writer) : Option writer :=
  match obj with
  | .Base t => writer.shl_int h w t.toNat
  | .NumericType t => writer.shl_int h w t.toNat
  | .ArrayType dimen subType _ =>
    (writer.shl_int h w Type_.ARRAY.toNat).bind fun w1 =>
      (writer.shl_int h w1 dimen).bind fun w2 =>
        H[subType]?.bind fun sub =>
          writer.shl_string h w2 sub.getName
  | .PointerType subType _ =>
    (writer.shl_int h w Type_.POINTER.toNat).bind fun w1 =>
      H[subType]?.bind fun sub =>
        writer.shl_string h w1 sub.getName
  | .StructTypeDef name size members =>
    (writer.shl_int h w Type_.STRUCT.toNat).bind fun w1 =>
      (writer.shl_int h w1 size).bind fun w2 =>
        (writer.shl_string h w2 name).bind fun w3 =>
          (writer.shl_int h w3 members.length).bind fun w4 =>
            members.foldlM (serializeMember h H) w4

/-! ## The wire layout, as the format description states it -/

/-- An integer field: four bytes in host order. -/
def wire_int (h : Host) (n : Int) : List Nat := objectRep h 4 n

/-- A length-prefixed string: the count as an integer field, then the
characters, no terminator. -/
def wire_string (h : Host) (s : List Nat) : List Nat := wire_int h s.length ++ s

/-- The canonical name of the descriptor a pointer refers to. -/
def nameAt (H : Heap) (p : Nat) : List Nat :=
  match H[p]? with
  | some obj => obj.getName
  | none => []

/-- The fields of one struct member: member name, member type name, offset. -/
def wire_member (h : Host) (H : Heap) (m : Member) : List Nat :=
  wire_string h m.name ++ wire_string h (nameAt H m.type) ++ wire_int h m.offset

/-- The record of a descriptor: the kind tag, then the fields of the kind.
Numeric: nothing more.  Array: length, element name.  Pointer: pointee name.
Struct: size, declared name, member count, the members in insertion order. -/
def wire_descriptor (h : Host) (H : Heap) : TypeBase → List Nat
  | .Base t => wire_int h t.toNat
  | .NumericType t => wire_int h t.toNat
  | .ArrayType dimen subType _ =>
    wire_int h Type_.ARRAY.toNat ++ wire_int h dimen ++ wire_string h (nameAt H subType)
  | .PointerType subType _ =>
    wire_int h Type_.POINTER.toNat ++ wire_string h (nameAt H subType)
  | .StructTypeDef name size members =>
    wire_int h Type_.STRUCT.toNat ++ wire_int h size ++ wire_string h name ++
      wire_int h members.length ++ (members.map (wire_member h H)).flatten

/-- Every descriptor an object points to is in the store. -/
def complete (H : Heap) : TypeBase → Bool
  | .ArrayType _ subType _ => decide (subType < H.length)
  | .PointerType subType _ => decide (subType < H.length)
  | .StructTypeDef _ _ members => members.all fun m => decide (m.type < H.length)
  | _ => true

/-! ## `std::map` with `std::string` keys -/

/-- A `std::map<std::string, β>`: its entries in the order an iteration meets
them, which is increasing key order. -/
abbrev map (β : Type) := List (List Nat × β)

/-- The member `contains`. -/
def map_contains {β : Type} (m : map β) (k : List Nat) : Bool :=
  m.any fun e => e.1 == k

/-- The assignment `m[k] = v`: the entry of `k` is overwritten if there is one,
and otherwise a new entry is placed where the order puts it. -/
def map_assign {β : Type} : map β → List Nat → β → map β
  | [], k, v => [(k, v)]
  | e :: rest, k, v =>
    if strLt k e.1 then (k, v) :: e :: rest
    else if strLt e.1 k then e :: map_assign rest k v
    else (k, v) :: rest

/-- The read `m[k]` of a `std::map<std::string, int>`: the mapped value, or the
zero of a value-initialised new entry; that entry cannot change the result of
any later read. -/
def map_index (m : map Int) (k : List Nat) : Int :=
  match m.find? fun e => e.1 == k with
  | some e => e.2
  | none => 0

/-! ## `save.cpp` -/

/-- The function `recurseType` of `save.cpp`, lines 34-52.

The `ARRAY` and `POINTER` branches cast the parameter and recurse into
`subType`; a descriptor whose `type` says `ARRAY` or `POINTER` but which is an
object of another class makes the `static_cast` undefined.

In the `STRUCT` branch line 47 reads
`const StructType* type = static_cast<const StructType*>(type);`.  The scope of
the new `type` begins before its initialiser, so the initialiser names the new
variable, not the parameter: the pointer whose `members` the loop of line 48
walks is indeterminate, and reading it is undefined behaviour. -/
def recurseType (H : Heap) : Nat → Nat → map Nat → Option (map Nat)
  | 0, _, _ => none
  | fuel + 1, type, visit =>
    match H[type]? with
    | none => none
    | some obj =>
      if map_contains visit obj.getName then some visit
      else
        let visit1 := map_assign visit obj.getName type
        match obj.type with
        | .ARRAY =>
          match obj with
          | .ArrayType _ subType _ => recurseType H fuel subType visit1
          | _ => none
        | .POINTER =>
          match obj with
          | .PointerType subType _ => recurseType H fuel subType visit1
          | _ => none
        | .STRUCT => none
        | _ => some visit1

/-- The loop of `save.cpp`, lines 54-56: the walk from every root. -/
def recurseTypes (H : Heap) (fuel : Nat) (types : List Nat) (visit : map Nat) :
    Option (map Nat) :=
  types.foldlM (fun v type => recurseType H fuel type v) visit

/-- The loop of `save.cpp`, lines 59-61: every entry of the map serialises the
descriptor it points to. -/
def serializeAll (h : Host) (H : Heap) (visit : map Nat) (w : writer) : Option writer :=
  visit.foldlM (fun w1 pair => H[pair.2]?.bind fun obj => serialize h H obj w1) w

/-- The function `writeSchema` of `save.cpp`, lines 53-62; the map `visit` is
passed by reference and is returned next to the writer. -/
def writeSchema (h : Host) (H : Heap) (fuel : Nat) (w : writer) (types : List Nat)
    (visit : map Nat) : Option (writer × map Nat) :=
  (recurseTypes H fuel types visit).bind fun visit1 =>
    (writer.shl_int h w visit1.length).bind fun w1 =>
      (serializeAll h H visit1 w1).bind fun w2 => some (w2, visit1)

/-- The loop of `save.cpp`, lines 82-85, filling `typeIdMap`. -/
def typeIdMap (typeMap : map Nat) : map Int :=
  (typeMap.foldl (fun (acc : map Int × Int) pair =>
    (map_assign acc.1 pair.1 acc.2, acc.2 + 1)) ([], 0)).1

/-- The body of the loop of `save.cpp`, lines 89-94: one object record. -/
def writeObject (h : Host) (H : Heap) (mem : Nat → Nat) (fuel : Nat) (ids : map Int)
    (w : writer) (item : Nat × Nat) : Option writer :=
  H[item.1]?.bind fun obj =>
    (writer.shl_int h w (map_index ids obj.getName)).bind fun w1 =>
      (getSize H fuel item.1).bind fun size =>
        (writer.shl_int h w1 size).bind fun w2 =>
          (writer.shl_int64 h w2 item.2).bind fun w3 =>
            writer.dump mem w3 item.2 size

/-- The function `writeFile` of `save.cpp`, lines 64-95.  An object is a pair
of a descriptor pointer and an address; `mem` is the memory `dump` reads.  The
literal `"SAVE"` is a `const char*`, which only `operator<<(const std::string&)`
accepts. -/
def writeFile (h : Host) (H : Heap) (mem : Nat → Nat) (fuel : Nat) (w : writer)
    (objects : List (Nat × Nat)) : Option writer :=
  (writer.shl_string h w (ascii "SAVE")).bind fun w1 =>
    (writer.shl_int h w1 VERSION).bind fun w2 =>
      (writer.shl_int h w2 (if littleEndian h then 1 else 0)).bind fun w3 =>
        (writeSchema h H fuel w3 (objects.map Prod.fst) []).bind fun r =>
          objects.foldlM (writeObject h H mem fuel (typeIdMap r.2)) r.1

/-! ## The layout of the sections -/

/-- The record of the descriptor a table entry points to. -/
def wire_entry (h : Host) (H : Heap) (e : List Nat × Nat) : List Nat :=
  match H[e.2]? with
  | some obj => wire_descriptor h H obj
  | none => []

/-- The schema section: the count, then the records in table order. -/
def wire_schema (h : Host) (H : Heap) (tbl : map Nat) : List Nat :=
  wire_int h tbl.length ++ (tbl.map (wire_entry h H)).flatten

/-- The keys of a map increase strictly along the iteration. -/
def map_sorted {β : Type} (m : map β) : Prop :=
  List.Pairwise (fun a b => strLt a.1 b.1 = true) m

/-- The array element or pointer target of a descriptor, if it has one. -/
def child : TypeBase → Option Nat
  | .ArrayType _ subType _ => some subType
  | .PointerType subType _ => some subType
  | _ => none

/-- The descriptors reachable from the roots through array elements, pointer
targets and struct members. -/
inductive Reachable (H : Heap) (roots : List Nat) : Nat → Prop where
  | root {p : Nat} : p ∈ roots → Reachable H roots p
  | element {p subType : Nat} {dimen : Int} {name : List Nat} :
    Reachable H roots p → H[p]? = some (.ArrayType dimen subType name) →
    Reachable H roots subType
  | target {p subType : Nat} {name : List Nat} :
    Reachable H roots p → H[p]? = some (.PointerType subType name) →
    Reachable H roots subType
  | member {p : Nat} {name : List Nat} {size : Int} {members : List Member} {m : Member} :
    Reachable H roots p → H[p]? = some (.StructTypeDef name size members) →
    m ∈ members → Reachable H roots m.type

/-- A descriptor on which the walk of `recurseType` has defined behaviour: its
`type` member agrees with its class, its element or target is in the store, and
it is not a struct. -/
def walkable (H : Heap) : TypeBase → Bool
  | .Base t => t != .ARRAY && t != .POINTER && t != .STRUCT
  | .NumericType t => t != .ARRAY && t != .POINTER && t != .STRUCT
  | .ArrayType _ subType _ => decide (subType < H.length)
  | .PointerType subType _ => decide (subType < H.length)
  | .StructTypeDef _ _ _ => false

/-- Every descriptor reachable from the roots is in the store and is
walkable. -/
def WalkableFrom (H : Heap) (roots : List Nat) : Prop :=
  ∀ q, Reachable H roots q → ∃ obj, H[q]? = some obj ∧ soh.save.walkable H obj = true

/-- A well-formed table: strictly increasing keys, and every entry is keyed by
the canonical name of the descriptor it points to. -/
def Table (H : Heap) (v : map Nat) : Prop :=
  map_sorted v ∧ ∀ e ∈ v, ∃ obj, H[e.2]? = some obj ∧ obj.getName = e.1

/-- The element or target of the descriptor at `q`, if there is one, has its
canonical name among the keys of the map. -/
def closedIn (H : Heap) (v : map Nat) (q : Nat) : Prop :=
  ∀ obj s, H[q]? = some obj → child obj = some s → map_contains v (nameAt H s) = true

/-- The 0-based rank of a name among the keys of a table: the number of keys
that come before it in the key order. -/
def rank (tbl : map Nat) (k : List Nat) : Nat :=
  (tbl.filter fun e => strLt e.1 k).length

/-- The keys of a table numbered consecutively from `i` in table order. -/
def idsFrom : Int → map Nat → map Int
  | _, [] => []
  | i, e :: rest => (e.1, i) :: idsFrom (i + 1) rest

/-- The canonical name of the element or target of the descriptor at `p`. -/
def childName (H : Heap) (p : Nat) : Option (List Nat) :=
  (H[p]?.bind child).map (nameAt H)

/-- The number of canonical names of the store that are not yet keys of the
map: the walk enters a descriptor only when this number drops. -/
def unvisited (H : Heap) (v : map Nat) : Nat :=
  ((H.map TypeBase.getName).toFinset.filter fun n => map_contains v n = false).card

/-- What the wire shows of a signed kind `s` and of its unsigned kind `u`, as
single roots of `writeSchema` and as arguments of `serialize`, both on a fresh
writer: the same table key, and the same bytes except for the kind tag, which
is the tag of `s` with `UNSIGNED_BIT` set for `u`. -/
def sameButTag (h : Host) (fuel : Nat) (s u : Type_) : Prop :=
  (writeSchema h [.NumericType s] fuel {} [0] []).map
      (fun r => (r.1.bytes, r.2.map Prod.fst)) =
    some ((wire_int h 1 ++ wire_int h s.toNat).map some, [(TypeBase.NumericType s).getName]) ∧
  (writeSchema h [.NumericType u] fuel {} [0] []).map
      (fun r => (r.1.bytes, r.2.map Prod.fst)) =
    some ((wire_int h 1 ++ wire_int h (s.toNat ||| UNSIGNED_BIT)).map some,
      [(TypeBase.NumericType s).getName]) ∧
  (serialize h [] (.NumericType s) {}).map writer.bytes =
    some ((wire_int h s.toNat).map some) ∧
  (serialize h [] (.NumericType u) {}).map writer.bytes =
    some ((wire_int h (s.toNat ||| UNSIGNED_BIT)).map some) ∧
  wire_int h (s.toNat ||| UNSIGNED_BIT) ≠ wire_int h s.toNat

/-! ## Descriptors as the constructors build them -/

/-- The ten numeric kinds. -/
def numericKinds : List Type_ :=
  [.INT8, .INT16, .INT32, .INT64, .UINT8, .UINT16, .UINT32, .UINT64, .FLOAT32, .FLOAT64]

/-- The kind of a descriptor with the signedness ignored:
`int(type) & ~UNSIGNED_BIT`. -/
def kindOf (obj : TypeBase) : Nat := obj.type.toNat &&& (0xFFFFFFFF - UNSIGNED_BIT)

/-- The descriptors built only by the constructors of `NumericType` (for one of
the ten numeric kinds), `ArrayType` and `PointerType`. -/
inductive Built (H : Heap) : Nat → Prop where
  | numeric {p : Nat} {t : Type_} :
    t ∈ numericKinds → H[p]? = some (.NumericType t) → Built H p
  | array {p e : Nat} {dimen : Int} {obj : TypeBase} :
    Built H e → ArrayType_new H dimen e = some obj → H[p]? = some obj → Built H p
  | pointer {p e : Nat} {obj : TypeBase} :
    Built H e → PointerType_new H e = some obj → H[p]? = some obj → Built H p

/-- The descriptors built only by the constructors of `NumericType` (for one of
the ten numeric kinds) and `ArrayType`. -/
inductive Flat (H : Heap) : Nat → Prop where
  | numeric {p : Nat} {t : Type_} :
    t ∈ numericKinds → H[p]? = some (.NumericType t) → Flat H p
  | array {p e : Nat} {dimen : Int} {obj : TypeBase} :
    Flat H e → ArrayType_new H dimen e = some obj → H[p]? = some obj → Flat H p

/-- A built descriptor that is not an array over a pointer: a numeric, an array
whose nested elements are arrays and numerics only, or a pointer to any built
descriptor. -/
inductive Plain (H : Heap) : Nat → Prop where
  | flat {p : Nat} : Flat H p → Plain H p
  | pointer {p e : Nat} {obj : TypeBase} :
    Built H e → PointerType_new H e = some obj → H[p]? = some obj → Plain H p

/-- The number a string of decimal digits stands for. -/
def decimalValue (cs : List Nat) : Nat :=
  cs.foldl (fun a c => 10 * a + (c - 48)) 0

/-! ## The writer as an object: moves, cells, sequences of appends -/

/-- The move constructor `writer(writer&& b)` of `save.h`, lines 33-37: the
writer it constructs, and the state it leaves `b` in.  The member initialisers
take the four members of `b`; the body resets `buf_`, `size_` and `capacity_`
of `b`. -/
def writer.move_ctor (b : writer) : writer × writer :=
  ({ buf_ := b.buf_, size_ := b.size_, capacity_ := b.capacity_, cur_ := b.cur_ },
   { buf_ := none, size_ := 0, capacity_ := 0, cur_ := b.cur_ })

/-- The cell of the buffer at offset `i`: `none` when there is no byte stored
there. -/
def writer.cell (w : writer) (i : Nat) : Option Nat :=
  match w.buf_ with
  | none => none
  | some b => b.getD i none

/-- One call of an append operation of the writer, with its arguments. -/
inductive Op where
  | shl_int (n : Int)
  | shl_int64 (n : Int)
  | shl_string (s : List Nat)
  | dump (ptr : Nat) (size : Int)
  | align (n : Int)
deriving DecidableEq, Repr

/-- The sizes of a call are in range: `dump` with a size `>= 0`, `align` with
`n > 0`. -/
def Op.sized : Op → Bool
  | .dump _ size => decide (0 ≤ size)
  | .align n => decide (0 < n)
  | _ => true

/-- The effect of one call on the writer. -/
def Op.apply (h : Host) (mem : Nat → Nat) (w : writer) : Op → Option writer
  | .shl_int n => writer.shl_int h w n
  | .shl_int64 n => writer.shl_int64 h w n
  | .shl_string s => writer.shl_string h w s
  | .dump ptr size => writer.dump mem w ptr size
  | .align n => writer.align w n

/-- A sequence of calls, one after the other. -/
def run (h : Host) (mem : Nat → Nat) (w : writer) (ops : List Op) : Option writer :=
  ops.foldlM (Op.apply h mem) w

/-- The effect of one call on the writer, with `int` of 32 bits. -/
def Op.apply_i32 (h : Host) (mem : Nat → Nat) (w : writer) : Op → Option writer
  | .shl_int n => writer.shl_int_i32 h w n
  | .shl_int64 n => writer.shl_int64_i32 h w n
  | .shl_string s => writer.shl_string_i32 h w s
  | .dump ptr size => writer.dump_i32 mem w ptr size
  | .align n => writer.align_i32 w n

/-- A sequence of calls, one after the other, with `int` of 32 bits. -/
def run_i32 (h : Host) (mem : Nat → Nat) (w : writer) (ops : List Op) : Option writer :=
  ops.foldlM (Op.apply_i32 h mem) w

/-- The largest size `ensure_size` can be asked for with a capacity
`(size + 1) + (size + 1) / 2` that is still an `int`: for this size the
capacity is `2147483647`. -/
def sizeLimit : Int := 1431655764

/-- The most a call adds to `size_`: the number of bytes it appends, and for
`align(n)` the `n` that bounds `n - cur_ % n`. -/
def Op.extent : Op → Int
  | .shl_int _ => 4
  | .shl_int64 _ => sizeof_voidp
  | .shl_string s => 4 + s.length
  | .dump _ size => size
  | .align n => n

/-- The most a sequence of calls adds to `size_`. -/
def extent (ops : List Op) : Int := (ops.map Op.extent).sum

/-! ## Concrete stores -/

/-- The descriptors of the struct `Test` of `testSaver` (`save.cpp`, lines
101-110), `sizeof(Test) = 12`: `int a` at 0, `float b` at 4, `char c` at 8, the
member types as `bindType` allocates them.  The struct is at pointer 3. -/
def testHeap : Heap :=
  [.NumericType .INT32, .NumericType .FLOAT32, .NumericType .INT8,
   .StructTypeDef (ascii "Test") 12
     [⟨ascii "a", 0, 0⟩, ⟨ascii "b", 4, 1⟩, ⟨ascii "c", 8, 2⟩]]

/-- A struct `Node` (pointer 0) whose only member `next` has the type
pointer-to-`Node` (pointer 1). -/
def nodeHeap : Heap :=
  [.StructTypeDef (ascii "Node") 8 [⟨ascii "next", 0, 1⟩],
   .PointerType 0 (ascii "*Node")]

/-- Five descriptors as their constructors build them: `int32` (0), pointer to
`int32` (1), array of two such pointers (2), array of two `int32` (3), pointer
to that array (4).  Descriptors 2 and 4 both get the name `*int32[2]`. -/
def clashHeap : Heap :=
  [.NumericType .INT32,
   .PointerType 0 (ascii "*int32"),
   .ArrayType 2 1 (ascii "*int32[2]"),
   .ArrayType 2 0 (ascii "int32[2]"),
   .PointerType 3 (ascii "*int32[2]")]

/-- An `int32` (0) and an array of `INT_MAX` of them (1), as the constructor
builds it. -/
def longArrayHeap : Heap :=
  [.NumericType .INT32, .ArrayType 2147483647 0 (ascii "int32[2147483647]")]

/-- An `int32` (0) and an array of ten of them (1). -/
def arrayHeap : Heap :=
  [.NumericType .INT32, .ArrayType 10 0 (ascii "int32[10]")]

/-- Two arrays of ten built over a signed and over an unsigned 32-bit integer:
descriptors 2 and 3 are distinct and both named `int32[10]`. -/
def twinHeap : Heap :=
  [.NumericType .INT32, .NumericType .UINT32,
   .ArrayType 10 0 (ascii "int32[10]"), .ArrayType 10 1 (ascii "int32[10]")]

/-- A struct `Pair` (pointer 2) of size 8 with the members `int x` at 0 and
`int y` at 4; `bindType` allocates one `NumericType(INT32)` for each member, so
the two member types are distinct descriptors named `int32`. -/
def pairHeap : Heap :=
  [.NumericType .INT32, .NumericType .INT32,
   .StructTypeDef (ascii "Pair") 8 [⟨ascii "x", 0, 0⟩, ⟨ascii "y", 4, 1⟩]]

/-- A struct `Vec3` (pointer 2) of size 12 whose only member `v` is an array of
three `float32`. -/
def vecHeap : Heap :=
  [.NumericType .FLOAT32, .ArrayType 3 0 (ascii "float32[3]"),
   .StructTypeDef (ascii "Vec3") 12 [⟨ascii "v", 0, 1⟩]]

/-! # Properties -/

/-! ## Bytes and strings -/

theorem leBytes_length (k v : Nat) : (leBytes k v).length = k := by
  induction k generalizing v with
  | zero => rfl
  | succ k ih => simp [leBytes, ih]

theorem objectRep_length (h : Host) (k : Nat) (n : Int) : (objectRep h k n).length = k := by
  unfold objectRep
  split <;> simp [leBytes_length]

namespace writer

theorem take_set_succ {α : Type} (b : List α) (i : Nat) (x : α) (h : i < b.length) :
    (b.set i x).take (i + 1) = b.take i ++ [x] := by
  induction b generalizing i with
  | nil => simp at h
  | cons a t ih =>
    cases i with
    | zero => simp
    | succ j =>
      simp at h
      simp [List.set, ih j h]

/-- A loop of stores that stays inside the allocation succeeds, keeps the
allocation size, and extends the cells below the cursor by the stored bytes. -/
theorem putAll_spec (cs : List Nat) (w : writer) (b : List (Option Nat))
    (hb : w.buf_ = some b) (h0 : 0 ≤ w.cur_) (hlen : w.cur_.toNat + cs.length ≤ b.length) :
    ∃ b1, putAll w cs = some { w with buf_ := some b1, cur_ := w.cur_ + cs.length } ∧
      b1.length = b.length ∧
      b1.take (w.cur_.toNat + cs.length) = b.take w.cur_.toNat ++ cs.map some := by
  induction cs generalizing w b with
  | nil =>
    refine ⟨b, ?_, rfl, by simp⟩
    simp [putAll, ← hb]
  | cons c cs ih =>
    obtain ⟨buf, size, cap, cur⟩ := w
    simp only at hb h0 hlen
    subst hb
    simp only [List.length_cons] at hlen
    have hput : put ⟨some b, size, cap, cur⟩ c =
        some ⟨some (b.set cur.toNat (some c)), size, cap, cur + 1⟩ := by
      unfold put
      simp only
      rw [if_pos ⟨h0, by omega⟩]
    obtain ⟨b1, h1, h2, h3⟩ := ih ⟨some (b.set cur.toNat (some c)), size, cap, cur + 1⟩
      (b.set cur.toNat (some c)) rfl (by simp only; omega)
      (by simp only [List.length_set]; omega)
    refine ⟨b1, ?_, by simpa using h2, ?_⟩
    · simp only [putAll, List.foldlM_cons, hput, Option.bind_eq_bind, Option.some_bind]
      simp only [putAll] at h1
      rw [h1]
      simp only [List.length_cons, Nat.cast_add, Nat.cast_one]
      congr 2
      omega
    · have e1 : (cur + 1).toNat = cur.toNat + 1 := by omega
      simp only [e1] at h3
      have e2 : cur.toNat + (cs.length + 1) = cur.toNat + 1 + cs.length := by omega
      simp only [List.length_cons, e2, h3]
      rw [take_set_succ _ _ _ (by omega)]
      simp

/-- Growing by a non-negative amount succeeds, keeps the cursor and the cells
below it, and leaves room for `n` stores at the cursor. -/
theorem grow_size_spec (w : writer) (n : Int) (hw : w.Ok) (hn : 0 ≤ n) :
    ∃ w1 b1, w.grow_size n = some w1 ∧ w1.buf_ = some b1 ∧ w1.cur_ = w.cur_ ∧
      w1.size_ = w.size_ + n ∧ w1.size_ < w1.capacity_ ∧ w1.capacity_ = b1.length ∧
      b1.take w.cur_.toNat = w.bytes := by
  obtain ⟨buf, size, cap, cur⟩ := w
  obtain ⟨h0, h1, h2⟩ := hw
  simp only at h0 h1 h2
  unfold grow_size ensure_size
  simp only
  by_cases hc : size + n < cap
  · rw [if_pos hc]
    cases buf with
    | none =>
      simp only at h2
      omega
    | some b =>
      simp only at h2
      exact ⟨_, b, rfl, rfl, rfl, rfl, hc, h2.2, by simp [bytes]⟩
  · rw [if_neg hc]
    have hcap : 0 ≤ ((size + n + 1) >>> (1 : Nat)) + (size + n + 1) ∧
        size + n < ((size + n + 1) >>> (1 : Nat)) + (size + n + 1) := by
      rw [Int.shiftRight_eq_div_pow]
      norm_num
      omega
    have hm : malloc (((size + n + 1) >>> (1 : Nat)) + (size + n + 1)) =
        some (List.replicate (((size + n + 1) >>> (1 : Nat)) + (size + n + 1)).toNat none) := by
      unfold malloc
      rw [if_neg (by omega)]
    cases buf with
    | none =>
      simp only at h2 ⊢
      refine ⟨_, _, rfl, hm, rfl, rfl, hcap.2, ?_, ?_⟩
      · simp only [List.length_replicate]
        omega
      · have : cur.toNat = 0 := by omega
        simp [bytes, this]
    | some b =>
      simp only at h2
      simp only [hm]
      have hcpy : memcpy (List.replicate
          (((size + n + 1) >>> (1 : Nat)) + (size + n + 1)).toNat none) b size =
          some (b.take size.toNat ++ (List.replicate
          (((size + n + 1) >>> (1 : Nat)) + (size + n + 1)).toNat none).drop size.toNat) := by
        unfold memcpy
        rw [if_pos]
        refine ⟨by omega, by omega, ?_⟩
        simp only [List.length_replicate]
        omega
      simp only [hcpy]
      refine ⟨_, _, rfl, rfl, rfl, rfl, hcap.2, ?_, ?_⟩
      · simp only [List.length_append, List.length_take, List.length_drop,
          List.length_replicate]
        omega
      · simp only [bytes]
        rw [List.take_append_of_le_length (by simp only [List.length_take]; omega)]
        rw [List.take_take]
        congr 1
        omega

/-- Growing by the number of bytes and storing them appends them. -/
theorem append_spec (w : writer) (cs : List Nat) (n : Int) (hn : n = cs.length)
    (hw : w.Ok) :
    ∃ w2, (w.grow_size n).bind (fun w1 => w1.putAll cs) = some w2 ∧ w2.Ok ∧
      w2.bytes = w.bytes ++ cs.map some ∧ w2.cur_ = w.cur_ + cs.length ∧
      w2.size_ = w.size_ + cs.length := by
  obtain ⟨w1, b1, hg, hb, hcur, hsize, hlt, hcap, htake⟩ :=
    grow_size_spec w n hw (by omega)
  obtain ⟨h0, h1, -⟩ := hw
  obtain ⟨b2, hp, hlen, htk⟩ := putAll_spec cs w1 b1 hb (by omega) (by omega)
  refine ⟨_, by rw [hg, Option.some_bind, hp], ⟨?_, ?_, ?_⟩, ?_, ?_, ?_⟩
  · simp only; omega
  · simp only; omega
  · simp only; omega
  · simp only [bytes]
    have e : (w1.cur_ + (cs.length : Int)).toNat = w1.cur_.toNat + cs.length := by omega
    rw [e, htk, hcur, htake]
    rfl
  · simp only [hcur]
  · simp only [hsize, hn]

theorem shl_int_spec (h : Host) (w : writer) (n : Int) (hw : w.Ok) :
    ∃ w1, shl_int h w n = some w1 ∧ w1.Ok ∧ w1.bytes = w.bytes ++ (wire_int h n).map some := by
  obtain ⟨w2, h1, h2, h3, -, -⟩ := append_spec w (objectRep h 4 n) 4
    (by simp [objectRep_length]) hw
  exact ⟨w2, h1, h2, h3⟩

theorem shl_string_spec (h : Host) (w : writer) (s : List Nat) (hw : w.Ok) :
    ∃ w1, shl_string h w s = some w1 ∧ w1.Ok ∧
      w1.bytes = w.bytes ++ (wire_string h s).map some := by
  obtain ⟨w1, h1, h2, h3⟩ := shl_int_spec h w s.length hw
  obtain ⟨w2, h4, h5, h6, -, -⟩ := append_spec w1 s s.length rfl h2
  refine ⟨w2, ?_, h5, ?_⟩
  · unfold shl_string
    rw [h1, Option.some_bind]
    exact h4
  · rw [h6, h3, wire_string]
    simp

theorem dump_spec (mem : Nat → Nat) (w : writer) (ptr : Nat) (size : Int) (hw : w.Ok)
    (hs : 0 ≤ size) :
    ∃ w1, dump mem w ptr size = some w1 ∧ w1.Ok ∧
      w1.bytes = w.bytes ++ ((List.range size.toNat).map fun i => mem (ptr + i)).map some := by
  obtain ⟨w2, h1, h2, h3, -, -⟩ := append_spec w
    ((List.range size.toNat).map fun i => mem (ptr + i)) size
    (by simp only [List.length_map, List.length_range]; omega) hw
  exact ⟨w2, h1, h2, h3⟩

end writer

/-! ## `serialize` -/

theorem nameAt_eq (H : Heap) (p : Nat) (obj : TypeBase) (hp : H[p]? = some obj) :
    nameAt H p = obj.getName := by
  simp [nameAt, hp]

theorem serializeMember_spec (h : Host) (H : Heap) (w : writer) (m : Member) (hw : w.Ok)
    (hm : m.type < H.length) :
    ∃ w1, serializeMember h H w m = some w1 ∧ w1.Ok ∧
      w1.bytes = w.bytes ++ (wire_member h H m).map some := by
  obtain ⟨w1, h1, o1, b1⟩ := writer.shl_string_spec h w m.name hw
  have hget : H[m.type]? = some H[m.type] := List.getElem?_eq_getElem hm
  obtain ⟨w2, h2, o2, b2⟩ := writer.shl_string_spec h w1 H[m.type].getName o1
  obtain ⟨w3, h3, o3, b3⟩ := writer.shl_int_spec h w2 m.offset o2
  refine ⟨w3, ?_, o3, ?_⟩
  · simp only [serializeMember, h1, hget, h2, h3, Option.some_bind]
  · rw [b3, b2, b1, wire_member, nameAt_eq H _ _ hget]
    simp

theorem serializeMembers_spec (h : Host) (H : Heap) (ms : List Member) (w : writer)
    (hw : w.Ok) (hm : ∀ m ∈ ms, m.type < H.length) :
    ∃ w1, ms.foldlM (serializeMember h H) w = some w1 ∧ w1.Ok ∧
      w1.bytes = w.bytes ++ ((ms.map (wire_member h H)).flatten).map some := by
  induction ms generalizing w with
  | nil => exact ⟨w, rfl, hw, by simp⟩
  | cons m ms ih =>
    obtain ⟨w1, h1, o1, b1⟩ := serializeMember_spec h H w m hw (hm m (by simp))
    obtain ⟨w2, h2, o2, b2⟩ := ih w1 o1 (fun x hx => hm x (by simp [hx]))
    refine ⟨w2, ?_, o2, ?_⟩
    · simp only [List.foldlM_cons, h1, Option.bind_eq_bind, Option.some_bind, h2]
    · rw [b2, b1]
      simp

/-- The virtual `serialize` appends the record of the descriptor and nothing
else. -/
theorem serialize_spec (h : Host) (H : Heap) (obj : TypeBase) (w : writer) (hw : w.Ok)
    (hc : complete H obj = true) :
    ∃ w1, serialize h H obj w = some w1 ∧ w1.Ok ∧
      w1.bytes = w.bytes ++ (wire_descriptor h H obj).map some := by
  cases obj with
  | Base t => exact writer.shl_int_spec h w _ hw
  | NumericType t => exact writer.shl_int_spec h w _ hw
  | ArrayType dimen subType name =>
    simp only [complete, decide_eq_true_eq] at hc
    have hget : H[subType]? = some H[subType] := List.getElem?_eq_getElem hc
    obtain ⟨w1, h1, o1, b1⟩ := writer.shl_int_spec h w Type_.ARRAY.toNat hw
    obtain ⟨w2, h2, o2, b2⟩ := writer.shl_int_spec h w1 dimen o1
    obtain ⟨w3, h3, o3, b3⟩ := writer.shl_string_spec h w2 H[subType].getName o2
    refine ⟨w3, ?_, o3, ?_⟩
    · simp only [serialize, h1, h2, hget, h3, Option.some_bind]
    · rw [b3, b2, b1, wire_descriptor, nameAt_eq H _ _ hget]
      simp
  | PointerType subType name =>
    simp only [complete, decide_eq_true_eq] at hc
    have hget : H[subType]? = some H[subType] := List.getElem?_eq_getElem hc
    obtain ⟨w1, h1, o1, b1⟩ := writer.shl_int_spec h w Type_.POINTER.toNat hw
    obtain ⟨w3, h3, o3, b3⟩ := writer.shl_string_spec h w1 H[subType].getName o1
    refine ⟨w3, ?_, o3, ?_⟩
    · simp only [serialize, h1, hget, h3, Option.some_bind]
    · rw [b3, b1, wire_descriptor, nameAt_eq H _ _ hget]
      simp
  | StructTypeDef name size members =>
    simp only [complete, List.all_eq_true, decide_eq_true_eq] at hc
    obtain ⟨w1, h1, o1, b1⟩ := writer.shl_int_spec h w Type_.STRUCT.toNat hw
    obtain ⟨w2, h2, o2, b2⟩ := writer.shl_int_spec h w1 size o1
    obtain ⟨w3, h3, o3, b3⟩ := writer.shl_string_spec h w2 name o2
    obtain ⟨w4, h4, o4, b4⟩ := writer.shl_int_spec h w3 members.length o3
    obtain ⟨w5, h5, o5, b5⟩ := serializeMembers_spec h H members w4 o4 hc
    refine ⟨w5, ?_, o5, ?_⟩
    · simp only [serialize, h1, h2, h3, h4, h5, Option.some_bind]
    · rw [b5, b4, b3, b2, b1, wire_descriptor]
      simp

/-! ## The key order -/

theorem strLt_irrefl (a : List Nat) : strLt a a = false := by
  induction a with
  | nil => rfl
  | cons x xs ih => simp [strLt, ih]

theorem strLt_trans {a b c : List Nat} (h1 : strLt a b = true) (h2 : strLt b c = true) :
    strLt a c = true := by
  induction a generalizing b c with
  | nil =>
    cases b with
    | nil => simp [strLt] at h1
    | cons y ys =>
      cases c with
      | nil => simp [strLt] at h2
      | cons z zs => simp [strLt]
  | cons x xs ih =>
    cases b with
    | nil => simp [strLt] at h1
    | cons y ys =>
      cases c with
      | nil => simp [strLt] at h2
      | cons z zs =>
        simp only [strLt, Bool.or_eq_true, decide_eq_true_eq, Bool.and_eq_true,
          beq_iff_eq] at h1 h2 ⊢
        rcases h1 with h1 | ⟨h1, h1'⟩
        · rcases h2 with h2 | ⟨h2, -⟩
          · left; omega
          · left; omega
        · rcases h2 with h2 | ⟨h2, h2'⟩
          · left; omega
          · right; exact ⟨by omega, ih h1' h2'⟩

theorem strLt_total {a b : List Nat} (h1 : strLt a b = false) (h2 : strLt b a = false) :
    a = b := by
  induction a generalizing b with
  | nil =>
    cases b with
    | nil => rfl
    | cons y ys => simp [strLt] at h1
  | cons x xs ih =>
    cases b with
    | nil => simp [strLt] at h2
    | cons y ys =>
      simp only [strLt, Bool.or_eq_false_iff, decide_eq_false_iff_not, Bool.and_eq_false_imp,
        beq_iff_eq] at h1 h2
      have hxy : x = y := by omega
      subst hxy
      rw [ih (h1.2 rfl) (h2.2 rfl)]

theorem strLt_ne {a b : List Nat} (h : strLt a b = true) : a ≠ b := by
  intro e
  subst e
  rw [strLt_irrefl] at h
  exact Bool.false_ne_true h

/-! ## The map -/

theorem map_contains_iff {β : Type} (m : map β) (k : List Nat) :
    map_contains m k = true ↔ ∃ e ∈ m, e.1 = k := by
  simp [map_contains]

theorem mem_map_assign_self {β : Type} (m : map β) (k : List Nat) (v : β) :
    (k, v) ∈ map_assign m k v := by
  induction m with
  | nil => simp [map_assign]
  | cons e rest ih =>
    unfold map_assign
    split
    · simp
    · split
      · simp [ih]
      · simp

theorem mem_map_assign_of_mem {β : Type} (m : map β) (k : List Nat) (v : β) (e : List Nat × β)
    (he : e ∈ m) (hk : e.1 ≠ k) : e ∈ map_assign m k v := by
  induction m with
  | nil => simp at he
  | cons x rest ih =>
    unfold map_assign
    split
    · simp only [List.mem_cons] at he ⊢
      right; exact he
    · rename_i h1
      split
      · simp only [List.mem_cons] at he ⊢
        rcases he with he | he
        · left; exact he
        · right; exact ih he
      · rename_i h2
        have hx : k = x.1 := strLt_total (by simpa using h1) (by simpa using h2)
        simp only [List.mem_cons] at he ⊢
        rcases he with he | he
        · subst he
          exact absurd hx.symm hk
        · right; exact he

theorem mem_of_mem_map_assign {β : Type} (m : map β) (k : List Nat) (v : β)
    (e : List Nat × β) (he : e ∈ map_assign m k v) : e = (k, v) ∨ e ∈ m := by
  induction m with
  | nil => simpa [map_assign] using he
  | cons x rest ih =>
    unfold map_assign at he
    split at he
    · simp only [List.mem_cons] at he ⊢
      tauto
    · split at he
      · simp only [List.mem_cons] at he ⊢
        rcases he with he | he
        · tauto
        · rcases ih he with h | h <;> tauto
      · simp only [List.mem_cons] at he ⊢
        tauto

theorem map_contains_assign {β : Type} (m : map β) (k : List Nat) (v : β) (n : List Nat) :
    map_contains (map_assign m k v) n = (map_contains m n || n == k) := by
  rw [Bool.eq_iff_iff]
  simp only [map_contains_iff, Bool.or_eq_true, beq_iff_eq]
  constructor
  · rintro ⟨e, he, rfl⟩
    rcases mem_of_mem_map_assign m k v e he with h | h
    · right; rw [h]
    · left; exact ⟨e, h, rfl⟩
  · rintro (⟨e, he, rfl⟩ | rfl)
    · by_cases hk : e.1 = k
      · exact ⟨(k, v), mem_map_assign_self m k v, hk.symm⟩
      · exact ⟨e, mem_map_assign_of_mem m k v e he hk, rfl⟩
    · exact ⟨(n, v), mem_map_assign_self m n v, rfl⟩

theorem map_sorted_assign {β : Type} (m : map β) (k : List Nat) (v : β) (hs : map_sorted m) :
    map_sorted (map_assign m k v) := by
  induction m with
  | nil => simp [map_assign, map_sorted]
  | cons x rest ih =>
    unfold map_sorted at hs ih ⊢
    rw [List.pairwise_cons] at hs
    unfold map_assign
    split
    · rename_i h1
      rw [List.pairwise_cons]
      refine ⟨?_, List.pairwise_cons.mpr hs⟩
      intro e he
      simp only [List.mem_cons] at he
      rcases he with he | he
      · rw [he]; exact h1
      · exact strLt_trans h1 (hs.1 e he)
    · rename_i h1
      split
      · rename_i h2
        rw [List.pairwise_cons]
        refine ⟨?_, ih hs.2⟩
        intro e he
        rcases mem_of_mem_map_assign rest k v e he with h | h
        · rw [h]; exact h2
        · exact hs.1 e h
      · rename_i h2
        have hx : k = x.1 := strLt_total (by simpa using h1) (by simpa using h2)
        rw [List.pairwise_cons]
        refine ⟨?_, hs.2⟩
        intro e he
        simp only
        rw [hx]
        exact hs.1 e he

theorem map_assign_length {β : Type} (m : map β) (k : List Nat) (v : β)
    (hk : map_contains m k = false) : (map_assign m k v).length = m.length + 1 := by
  induction m with
  | nil => simp [map_assign]
  | cons x rest ih =>
    simp only [map_contains, List.any_cons, Bool.or_eq_false_iff, beq_eq_false_iff_ne] at hk
    unfold map_assign
    split
    · simp
    · rename_i h1
      split
      · simp [ih (by simpa [map_contains] using hk.2)]
      · rename_i h2
        have hx : k = x.1 := strLt_total (by simpa using h1) (by simpa using h2)
        exact absurd hx.symm hk.1

/-! ## The walk -/

theorem unvisited_le (H : Heap) (v : map Nat) : unvisited H v ≤ H.length := by
  unfold unvisited
  calc _ ≤ (H.map TypeBase.getName).toFinset.card := Finset.card_filter_le _ _
    _ ≤ (H.map TypeBase.getName).length := List.toFinset_card_le _
    _ = H.length := by simp

theorem unvisited_assign_lt (H : Heap) (v : map Nat) (k : List Nat) (x : Nat)
    (hk : k ∈ H.map TypeBase.getName) (hc : map_contains v k = false) :
    unvisited H (map_assign v k x) < unvisited H v := by
  unfold unvisited
  apply Finset.card_lt_card
  refine ⟨?_, ?_⟩
  · intro n hn
    simp only [Finset.mem_filter, map_contains_assign, Bool.or_eq_false_iff] at hn ⊢
    exact ⟨hn.1, hn.2.1⟩
  · intro hsub
    have h1 : k ∈ (H.map TypeBase.getName).toFinset.filter
        (fun n => map_contains v n = false) := by
      simp only [Finset.mem_filter, List.mem_toFinset]
      exact ⟨hk, hc⟩
    have h2 := hsub h1
    simp [map_contains_assign] at h2

theorem map_contains_mono {β : Type} (v v1 : map β) (hsub : ∀ e ∈ v, e ∈ v1) (n : List Nat)
    (hn : map_contains v n = true) : map_contains v1 n = true := by
  rw [map_contains_iff] at hn ⊢
  obtain ⟨e, he, hk⟩ := hn
  exact ⟨e, hsub e he, hk⟩

theorem closedIn_mono (H : Heap) (v v1 : map Nat) (hsub : ∀ e ∈ v, e ∈ v1) (q : Nat)
    (hq : closedIn H v q) : closedIn H v1 q :=
  fun obj s h1 h2 => map_contains_mono v v1 hsub _ (hq obj s h1 h2)

theorem Reachable_mono (H : Heap) (roots roots1 : List Nat)
    (hr : ∀ r ∈ roots1, Reachable H roots r) (q : Nat) (hq : Reachable H roots1 q) :
    Reachable H roots q := by
  induction hq with
  | root h => exact hr _ h
  | element _ h ih => exact Reachable.element ih h
  | target _ h ih => exact Reachable.target ih h
  | member _ h hm ih => exact Reachable.member ih h hm

theorem Reachable_child (H : Heap) (p s q : Nat) (obj : TypeBase) (hp : H[p]? = some obj)
    (hs : child obj = some s) (hq : Reachable H [s] q) : Reachable H [p] q := by
  apply Reachable_mono H [p] [s] _ q hq
  intro r hr
  simp only [List.mem_singleton] at hr
  subst hr
  have h0 : Reachable H [p] p := Reachable.root (by simp)
  cases obj with
  | Base t => simp [child] at hs
  | NumericType t => simp [child] at hs
  | ArrayType d s1 n =>
    simp only [child, Option.some.injEq] at hs
    subst hs
    exact Reachable.element h0 hp
  | PointerType s1 n =>
    simp only [child, Option.some.injEq] at hs
    subst hs
    exact Reachable.target h0 hp
  | StructTypeDef n sz ms => simp [child] at hs

theorem WalkableFrom_mono (H : Heap) (roots roots1 : List Nat)
    (hr : ∀ r ∈ roots1, Reachable H roots r) (hW : WalkableFrom H roots) : WalkableFrom H roots1 :=
  fun q hq => hW q (Reachable_mono H roots roots1 hr q hq)

theorem WalkableFrom_child (H : Heap) (p s : Nat) (obj : TypeBase) (hp : H[p]? = some obj)
    (hs : child obj = some s) (hW : WalkableFrom H [p]) : WalkableFrom H [s] :=
  fun q hq => hW q (Reachable_child H p s q obj hp hs hq)

/-- The defect of the `STRUCT` branch: the walk has no defined result on a
struct descriptor whose name is not yet in the map, whatever the fuel. -/
theorem recurseType_struct (H : Heap) (fuel p : Nat) (v : map Nat) (name : List Nat)
    (size : Int) (members : List Member)
    (hp : H[p]? = some (.StructTypeDef name size members))
    (hv : map_contains v (c_str name) = false) : recurseType H fuel p v = none := by
  cases fuel with
  | zero => rfl
  | succ n => simp [recurseType, hp, TypeBase.getName, hv, TypeBase.type]

/-- One step of the walk on a descriptor that is not yet in the map: either
the walk stops with the new map, or it goes on into the element or target. -/
theorem recurseType_step (H : Heap) (fuel p : Nat) (v : map Nat) (obj : TypeBase)
    (hp : H[p]? = some obj) (hw : walkable H obj = true)
    (hc : map_contains v obj.getName = false) :
    (child obj = none ∧
      recurseType H (fuel + 1) p v = some (map_assign v obj.getName p)) ∨
    (∃ s, child obj = some s ∧ s < H.length ∧
      recurseType H (fuel + 1) p v = recurseType H fuel s (map_assign v obj.getName p)) := by
  cases obj with
  | Base t =>
    left
    refine ⟨rfl, ?_⟩
    cases t <;> simp [walkable] at hw <;> simp [recurseType, hp, hc, TypeBase.type]
  | NumericType t =>
    left
    refine ⟨rfl, ?_⟩
    cases t <;> simp [walkable] at hw <;> simp [recurseType, hp, hc, TypeBase.type]
  | ArrayType d s n =>
    right
    simp only [walkable, decide_eq_true_eq] at hw
    exact ⟨s, rfl, hw, by simp [recurseType, hp, hc, TypeBase.type]⟩
  | PointerType s n =>
    right
    simp only [walkable, decide_eq_true_eq] at hw
    exact ⟨s, rfl, hw, by simp [recurseType, hp, hc, TypeBase.type]⟩
  | StructTypeDef n sz ms => simp [walkable] at hw

/-- When every descriptor reachable from `p` is walkable, the walk from `p`
returns once the fuel exceeds the number of unvisited names.  The map it
returns is a well-formed table that keeps every old entry, has the name of `p`
among its keys, and whose new entries are reachable from `p` and closed. -/
theorem recurseType_spec (H : Heap) :
    ∀ (fuel p : Nat) (v : map Nat), WalkableFrom H [p] → Table H v → unvisited H v < fuel →
      ∃ v1, recurseType H fuel p v = some v1 ∧ Table H v1 ∧ (∀ e ∈ v, e ∈ v1) ∧
        map_contains v1 (nameAt H p) = true ∧
        ∀ e ∈ v1, e ∈ v ∨ (Reachable H [p] e.2 ∧ closedIn H v1 e.2) := by
  intro fuel
  induction fuel with
  | zero => intro p v _ _ h; omega
  | succ fuel ih =>
    intro p v hW hT hfuel
    have hself : Reachable H [p] p := Reachable.root (by simp)
    obtain ⟨obj, hget, hw⟩ := hW p hself
    have hname : nameAt H p = obj.getName := nameAt_eq H p _ hget
    by_cases hc : map_contains v obj.getName = true
    · refine ⟨v, ?_, hT, fun e he => he, by rw [hname]; exact hc, fun e he => Or.inl he⟩
      simp [recurseType, hget, hc]
    · have hc1 : map_contains v obj.getName = false := by simpa using hc
      have hT1 : Table H (map_assign v obj.getName p) := by
        refine ⟨map_sorted_assign v _ _ hT.1, ?_⟩
        intro e he
        rcases mem_of_mem_map_assign v _ _ e he with h | h
        · rw [h]; exact ⟨obj, hget, rfl⟩
        · exact hT.2 e h
      have hsub1 : ∀ e ∈ v, e ∈ map_assign v obj.getName p := by
        intro e he
        apply mem_map_assign_of_mem v _ _ e he
        intro hk
        have : map_contains v obj.getName = true := (map_contains_iff v _).mpr ⟨e, he, hk⟩
        rw [hc1] at this
        exact Bool.false_ne_true this
      rcases recurseType_step H fuel p v obj hget hw hc1 with ⟨hch, hr⟩ | ⟨s, hch, hs, hr⟩
      · refine ⟨_, hr, hT1, hsub1, ?_, ?_⟩
        · rw [hname, map_contains_assign]; simp
        · intro e he
          rcases mem_of_mem_map_assign v _ _ e he with h | h
          · right
            rw [h]
            refine ⟨hself, ?_⟩
            intro obj1 s h1 h2
            simp only at h1
            rw [hget] at h1
            cases h1
            rw [hch] at h2
            cases h2
          · left; exact h
      · have hlt := unvisited_assign_lt H v obj.getName p
          (List.mem_map.mpr ⟨obj, List.getElem?_mem hget, rfl⟩) hc1
        obtain ⟨v2, h1, h2, h3, h4, h5⟩ := ih s (map_assign v obj.getName p)
          (WalkableFrom_child H p s obj hget hch hW) hT1 (by omega)
        refine ⟨v2, by rw [hr, h1], h2, fun e he => h3 e (hsub1 e he), ?_, ?_⟩
        · rw [hname]
          exact (map_contains_iff v2 _).mpr ⟨_, h3 _ (mem_map_assign_self v _ p), rfl⟩
        · intro e he
          rcases h5 e he with h | ⟨h, h'⟩
          · rcases mem_of_mem_map_assign v _ _ e h with h6 | h6
            · right
              rw [h6]
              refine ⟨hself, ?_⟩
              intro obj1 s1 g1 g2
              simp only at g1
              rw [hget] at g1
              cases g1
              rw [hch] at g2
              cases g2
              exact h4
            · left; exact h6
          · right
            exact ⟨Reachable_child H p s e.2 obj hget hch h, h'⟩

/-- More fuel does not change a result of the walk. -/
theorem recurseType_fuel_succ (H : Heap) :
    ∀ (fuel p : Nat) (v r : map Nat), recurseType H fuel p v = some r →
      recurseType H (fuel + 1) p v = some r := by
  intro fuel
  induction fuel with
  | zero => intro p v r h; simp [recurseType] at h
  | succ n ih =>
    intro p v r h
    cases hp : H[p]? with
    | none => simp [recurseType, hp] at h
    | some obj =>
      by_cases hc : map_contains v obj.getName = true
      · simp only [recurseType, hp, hc, if_true] at h ⊢
        exact h
      · cases obj with
        | Base t =>
          cases t <;> first
            | (simp [recurseType, hp, hc, TypeBase.type] at h; done)
            | simpa [recurseType, hp, hc, TypeBase.type] using h
        | NumericType t =>
          cases t <;> first
            | (simp [recurseType, hp, hc, TypeBase.type] at h; done)
            | simpa [recurseType, hp, hc, TypeBase.type] using h
        | ArrayType d s nm =>
          have h1 : recurseType H n s (map_assign v (TypeBase.ArrayType d s nm).getName p) =
              some r := by simpa [recurseType, hp, hc, TypeBase.type] using h
          have h2 := ih _ _ _ h1
          rw [← h2]
          conv_lhs => rw [recurseType]
          simp [hp, hc, TypeBase.type]
        | PointerType s nm =>
          have h1 : recurseType H n s (map_assign v (TypeBase.PointerType s nm).getName p) =
              some r := by simpa [recurseType, hp, hc, TypeBase.type] using h
          have h2 := ih _ _ _ h1
          rw [← h2]
          conv_lhs => rw [recurseType]
          simp [hp, hc, TypeBase.type]
        | StructTypeDef nm sz ms => simp [recurseType, hp, hc, TypeBase.type] at h

/-- More fuel does not change a result of `getSize`. -/
theorem getSize_fuel_succ (H : Heap) :
    ∀ (fuel p : Nat) (s : Int), getSize H fuel p = some s → getSize H (fuel + 1) p = some s := by
  intro fuel
  induction fuel with
  | zero => intro p s h; simp [getSize] at h
  | succ n ih =>
    intro p s h
    cases hp : H[p]? with
    | none => simp [getSize, hp] at h
    | some obj =>
      cases obj with
      | ArrayType d e nm =>
        have h1 : (getSize H n e).map (fun x => wrap_int (x * d)) = some s := by
          simpa [getSize, hp] using h
        obtain ⟨x, hx, hxs⟩ := Option.map_eq_some'.mp h1
        have h2 := ih _ _ hx
        conv_lhs => rw [getSize]
        simp [hp, h2, hxs]
      | _ => simpa [getSize, hp] using h

theorem Ok_fresh : ({} : writer).Ok := by
  simp [writer.Ok]

theorem Table_nil (H : Heap) : Table H [] :=
  ⟨List.Pairwise.nil, by simp⟩

theorem recurseTypes_spec (H : Heap) (fuel : Nat) (hfuel : H.length < fuel) :
    ∀ (roots : List Nat) (v : map Nat), WalkableFrom H roots → Table H v →
      ∃ v1, recurseTypes H fuel roots v = some v1 ∧ Table H v1 ∧ (∀ e ∈ v, e ∈ v1) ∧
        (∀ r ∈ roots, map_contains v1 (nameAt H r) = true) ∧
        ∀ e ∈ v1, e ∈ v ∨ (Reachable H roots e.2 ∧ closedIn H v1 e.2) := by
  intro roots
  induction roots with
  | nil =>
    intro v _ hT
    exact ⟨v, rfl, hT, fun e he => he, by simp, fun e he => Or.inl he⟩
  | cons r rs ih =>
    intro v hW hT
    have hr1 : ∀ x ∈ [r], Reachable H (r :: rs) x := by
      intro x hx
      simp only [List.mem_singleton] at hx
      rw [hx]
      exact Reachable.root (by simp)
    have hr2 : ∀ x ∈ rs, Reachable H (r :: rs) x :=
      fun x hx => Reachable.root (by simp [hx])
    obtain ⟨v1, h1, h2, h3, h4, h5⟩ := recurseType_spec H fuel r v
      (WalkableFrom_mono H (r :: rs) [r] hr1 hW) hT (by have := unvisited_le H v; omega)
    obtain ⟨v2, g1, g2, g3, g4, g5⟩ := ih v1 (WalkableFrom_mono H (r :: rs) rs hr2 hW) h2
    refine ⟨v2, ?_, g2, fun e he => g3 e (h3 e he), ?_, ?_⟩
    · simp only [recurseTypes, List.foldlM_cons, h1, Option.bind_eq_bind, Option.some_bind]
      exact g1
    · intro x hx
      simp only [List.mem_cons] at hx
      rcases hx with hx | hx
      · rw [hx]; exact map_contains_mono v1 v2 g3 _ h4
      · exact g4 x hx
    · intro e he
      rcases g5 e he with h | ⟨h, h'⟩
      · rcases h5 e h with k | ⟨k, k'⟩
        · left; exact k
        · right
          exact ⟨Reachable_mono H (r :: rs) [r] hr1 _ k, closedIn_mono H v1 v2 g3 _ k'⟩
      · right
        exact ⟨Reachable_mono H (r :: rs) rs hr2 _ h, h'⟩

theorem complete_of_walkable (H : Heap) (obj : TypeBase) (hw : walkable H obj = true) :
    complete H obj = true := by
  cases obj <;> simp_all [walkable, complete]

theorem serializeAll_spec (h : Host) (H : Heap) (tbl : map Nat) (w : writer) (hw : w.Ok)
    (ht : ∀ e ∈ tbl, ∃ obj, H[e.2]? = some obj ∧ complete H obj = true) :
    ∃ w1, serializeAll h H tbl w = some w1 ∧ w1.Ok ∧
      w1.bytes = w.bytes ++ ((tbl.map (wire_entry h H)).flatten).map some := by
  induction tbl generalizing w with
  | nil => exact ⟨w, rfl, hw, by simp⟩
  | cons e rest ih =>
    obtain ⟨obj, ho, hc⟩ := ht e (by simp)
    obtain ⟨w1, h1, o1, b1⟩ := serialize_spec h H obj w hw hc
    obtain ⟨w2, h2, o2, b2⟩ := ih w1 o1 (fun x hx => ht x (by simp [hx]))
    refine ⟨w2, ?_, o2, ?_⟩
    · simp only [serializeAll, List.foldlM_cons, ho, Option.bind_eq_bind, Option.some_bind, h1]
      exact h2
    · rw [b2, b1]
      simp [wire_entry, ho]

/-- When every descriptor reachable from the roots is walkable, `writeSchema`
from an empty map returns; it appends the count and the records of the table
the walk built, and every entry of the table is reachable from the roots. -/
theorem writeSchema_spec (h : Host) (H : Heap) (fuel : Nat) (hfuel : H.length < fuel)
    (w : writer) (hw : w.Ok) (roots : List Nat) (hW : WalkableFrom H roots) :
    ∃ w1 tbl, writeSchema h H fuel w roots [] = some (w1, tbl) ∧
      recurseTypes H fuel roots [] = some tbl ∧ w1.Ok ∧
      w1.bytes = w.bytes ++ (wire_schema h H tbl).map some := by
  obtain ⟨tbl, h1, -, -, -, h5⟩ := recurseTypes_spec H fuel hfuel roots [] hW (Table_nil H)
  obtain ⟨w1, g1, o1, b1⟩ := writer.shl_int_spec h w tbl.length hw
  obtain ⟨w2, g2, o2, b2⟩ := serializeAll_spec h H tbl w1 o1 (by
    intro e he
    rcases h5 e he with hnil | ⟨hreach, -⟩
    · simp at hnil
    · obtain ⟨obj, ho, hwk⟩ := hW _ hreach
      exact ⟨obj, ho, complete_of_walkable H obj hwk⟩)
  refine ⟨w2, tbl, ?_, h1, o2, ?_⟩
  · simp only [writeSchema, h1, g1, g2, Option.some_bind]
  · rw [b2, b1, wire_schema]
    simp

/-- The table `writeSchema` builds from an empty map has strictly increasing
keys, each the canonical name of the descriptor its entry points to, and the
count it writes is the number of entries. -/
theorem writeSchema_increasing (h : Host) (H : Heap) (fuel : Nat) (hfuel : H.length < fuel)
    (w : writer) (hw : w.Ok) (roots : List Nat) (hW : WalkableFrom H roots) :
    ∃ w1 tbl, writeSchema h H fuel w roots [] = some (w1, tbl) ∧ Table H tbl ∧
      w1.bytes = w.bytes ++
        (wire_int h tbl.length ++ (tbl.map (wire_entry h H)).flatten).map some := by
  obtain ⟨w1, tbl, h1, h2, -, h3⟩ := writeSchema_spec h H fuel hfuel w hw roots hW
  obtain ⟨tbl1, g1, g2, -, -, -⟩ := recurseTypes_spec H fuel hfuel roots [] hW (Table_nil H)
  rw [h2] at g1
  cases g1
  exact ⟨w1, tbl, h1, g2, h3⟩

theorem strLt_asymm {a b : List Nat} (h : strLt a b = true) : strLt b a = false := by
  by_contra hc
  have h1 : strLt b a = true := by simpa using hc
  have := strLt_trans h h1
  rw [strLt_irrefl] at this
  exact Bool.false_ne_true this

theorem map_assign_last {β : Type} (m : map β) (k : List Nat) (v : β)
    (hm : ∀ e ∈ m, strLt e.1 k = true) : map_assign m k v = m ++ [(k, v)] := by
  induction m with
  | nil => rfl
  | cons e rest ih =>
    have h1 : strLt e.1 k = true := hm e (by simp)
    have h2 : strLt k e.1 = false := strLt_asymm h1
    simp only [map_assign, h2, h1, Bool.false_eq_true, if_false, if_true, List.cons_append,
      ih (fun x hx => hm x (by simp [hx]))]

theorem idsFrom_keys (i : Int) (l : map Nat) : ∀ a ∈ idsFrom i l, ∃ e ∈ l, e.1 = a.1 := by
  induction l generalizing i with
  | nil => simp [idsFrom]
  | cons e rest ih =>
    intro a ha
    simp only [idsFrom, List.mem_cons] at ha
    rcases ha with ha | ha
    · exact ⟨e, by simp, by rw [ha]⟩
    · obtain ⟨x, hx, hk⟩ := ih (i + 1) a ha
      exact ⟨x, by simp [hx], hk⟩

theorem typeIdMap_fold (l : map Nat) (acc : map Int) (i : Int) (hs : map_sorted l)
    (hacc : ∀ a ∈ acc, ∀ e ∈ l, strLt a.1 e.1 = true) :
    (l.foldl (fun (acc : map Int × Int) pair =>
      (map_assign acc.1 pair.1 acc.2, acc.2 + 1)) (acc, i)).1 = acc ++ idsFrom i l := by
  induction l generalizing acc i with
  | nil => simp [idsFrom]
  | cons e rest ih =>
    unfold map_sorted at hs
    rw [List.pairwise_cons] at hs
    simp only [List.foldl_cons]
    rw [map_assign_last acc e.1 i (fun a ha => hacc a ha e (by simp))]
    rw [ih (acc ++ [(e.1, i)]) (i + 1) hs.2]
    · simp [idsFrom]
    · intro a ha x hx
      simp only [List.mem_append, List.mem_singleton] at ha
      rcases ha with ha | ha
      · exact hacc a ha x (by simp [hx])
      · rw [ha]; exact hs.1 x hx

/-- On a table with increasing keys the loop of `writeFile` numbers the keys
in table order, from 0. -/
theorem typeIdMap_eq (tbl : map Nat) (hs : map_sorted tbl) : typeIdMap tbl = idsFrom 0 tbl := by
  unfold typeIdMap
  rw [typeIdMap_fold tbl [] 0 hs (by simp)]
  simp

theorem map_index_idsFrom (l : map Nat) (i : Int) (k : List Nat) (hs : map_sorted l)
    (hk : map_contains l k = true) :
    map_index (idsFrom i l) k = i + rank l k ∧ rank l k < l.length ∧
      l[rank l k]?.map Prod.fst = some k := by
  induction l generalizing i with
  | nil => simp [map_contains] at hk
  | cons e rest ih =>
    unfold map_sorted at hs
    rw [List.pairwise_cons] at hs
    by_cases hek : e.1 = k
    · have hr : rank (e :: rest) k = 0 := by
        unfold rank
        rw [List.length_eq_zero, List.filter_eq_nil_iff]
        intro x hx
        simp only [List.mem_cons] at hx
        rcases hx with hx | hx
        · rw [hx, hek, strLt_irrefl]; simp
        · rw [← hek, strLt_asymm (hs.1 x hx)]; simp
      rw [hr]
      refine ⟨?_, by simp, by simp [hek]⟩
      simp [map_index, idsFrom, hek]
    · have hk1 : map_contains rest k = true := by
        simp only [map_contains, List.any_cons, Bool.or_eq_true, beq_iff_eq] at hk
        rcases hk with hk | hk
        · exact absurd hk hek
        · simpa [map_contains] using hk
      obtain ⟨x, hx, hxk⟩ := (map_contains_iff rest k).mp hk1
      have hlt : strLt e.1 k = true := by rw [← hxk]; exact hs.1 x hx
      obtain ⟨h1, h2, h3⟩ := ih (i + 1) hs.2 hk1
      have hr : rank (e :: rest) k = rank rest k + 1 := by
        unfold rank
        rw [List.filter_cons_of_pos (by simpa using hlt)]
        simp
      rw [hr]
      refine ⟨?_, by simpa using h2, by simpa using h3⟩
      have : map_index (idsFrom i (e :: rest)) k = map_index (idsFrom (i + 1) rest) k := by
        simp [map_index, idsFrom, hek]
      rw [this, h1]
      push_cast
      ring

/-- The id `writeFile` looks up for a name that is a key of a table with
increasing keys is the 0-based rank of the name among the keys; it is below the
number of entries, and the entry at that position carries the name. -/
theorem typeId_is_rank (tbl : map Nat) (k : List Nat) (hs : map_sorted tbl)
    (hk : map_contains tbl k = true) :
    map_index (typeIdMap tbl) k = rank tbl k ∧ rank tbl k < tbl.length ∧
      tbl[rank tbl k]?.map Prod.fst = some k := by
  rw [typeIdMap_eq tbl hs]
  obtain ⟨h1, h2, h3⟩ := map_index_idsFrom tbl 0 k hs hk
  exact ⟨by simpa using h1, h2, h3⟩

/-- When every descriptor reachable from the object types is walkable, the
table of `writeFile` has increasing keys and holds the type name of every
object, so the id in every object record is the rank of that name. -/
theorem writeFile_ids (H : Heap) (fuel : Nat) (hfuel : H.length < fuel)
    (objects : List (Nat × Nat)) (hW : WalkableFrom H (objects.map Prod.fst)) :
    ∃ tbl, recurseTypes H fuel (objects.map Prod.fst) [] = some tbl ∧ map_sorted tbl ∧
      ∀ item ∈ objects,
        map_index (typeIdMap tbl) (nameAt H item.1) = rank tbl (nameAt H item.1) ∧
        rank tbl (nameAt H item.1) < tbl.length ∧
        tbl[rank tbl (nameAt H item.1)]?.map Prod.fst = some (nameAt H item.1) := by
  obtain ⟨tbl, h1, h2, -, h4, -⟩ := recurseTypes_spec H fuel hfuel (objects.map Prod.fst) []
    hW (Table_nil H)
  refine ⟨tbl, h1, h2.1, ?_⟩
  intro item hi
  exact typeId_is_rank tbl _ h2.1 (h4 item.1 (List.mem_map.mpr ⟨item, hi, rfl⟩))

/-! ## Names without NUL -/

theorem c_str_eq_self (s : List Nat) (hs : ∀ c ∈ s, c ≠ 0) : c_str s = s := by
  unfold c_str
  rw [List.takeWhile_eq_self_iff]
  intro c hc
  simpa using hs c hc

theorem c_str_ne_zero (s : List Nat) : ∀ c ∈ c_str s, c ≠ 0 := by
  intro c hc
  have := List.mem_takeWhile_imp hc
  simpa using this

theorem getName_ne_zero (obj : TypeBase) : ∀ c ∈ obj.getName, c ≠ 0 := by
  cases obj with
  | Base t =>
    have : ∀ c ∈ ascii "error", c ≠ 0 := by decide
    exact this
  | NumericType t => exact c_str_ne_zero _
  | ArrayType d s n => exact c_str_ne_zero _
  | PointerType s n => exact c_str_ne_zero _
  | StructTypeDef n sz ms => exact c_str_ne_zero _

theorem toDigitsCore_ne_zero (fuel n : Nat) (ds : List Char) (hds : ∀ c ∈ ds, c.toNat ≠ 0) :
    ∀ c ∈ Nat.toDigitsCore 10 fuel n ds, c.toNat ≠ 0 := by
  induction fuel generalizing n ds with
  | zero => simpa [Nat.toDigitsCore] using hds
  | succ fuel ih =>
    have hd : (Nat.digitChar (n % 10)).toNat ≠ 0 := by
      have key : ∀ m, m < 10 → (Nat.digitChar m).toNat ≠ 0 := by decide
      exact key _ (Nat.mod_lt _ (by norm_num))
    have hds1 : ∀ c ∈ Nat.digitChar (n % 10) :: ds, c.toNat ≠ 0 := by
      intro c hc
      simp only [List.mem_cons] at hc
      rcases hc with hc | hc
      · rw [hc]; exact hd
      · exact hds c hc
    unfold Nat.toDigitsCore
    simp only
    split
    · exact hds1
    · exact ih _ _ hds1

theorem ascii_repr_ne_zero (m : Nat) : ∀ c ∈ ascii (Nat.repr m), c ≠ 0 := by
  intro c hc
  simp only [ascii, Nat.repr, List.asString, List.mem_map] at hc
  obtain ⟨ch, h1, rfl⟩ := hc
  exact toDigitsCore_ne_zero _ _ [] (by simp) ch h1

theorem sprintf_d_ne_zero (n : Int) : ∀ c ∈ sprintf_d n, c ≠ 0 := by
  cases n with
  | ofNat m => exact ascii_repr_ne_zero m
  | negSucc m =>
    intro c hc
    have e : sprintf_d (Int.negSucc m) = ascii "-" ++ ascii (Nat.repr (m + 1)) := by
      simp [sprintf_d, ascii, toString, instToStringInt, instToStringNat]
    rw [e, List.mem_append] at hc
    rcases hc with hc | hc
    · have : ∀ c ∈ ascii "-", c ≠ 0 := by decide
      exact this c hc
    · exact ascii_repr_ne_zero _ c hc

/-! ## Generic helpers -/

theorem wire_int_length (h : Host) (n : Int) : (wire_int h n).length = 4 :=
  objectRep_length h 4 n

/-! ## C1: the header -/

/-- C2 fails on the code: for one object of the struct type
`Test`, `writeFile` has no defined result on any host, with any memory and any
amount of fuel, so no object record is produced. -/
theorem C2_struct_object_undefined (h : Host) (mem : Nat → Nat) (fuel : Nat) (ptr : Nat) :
    writeFile h testHeap mem fuel {} [(3, ptr)] = none := by
  obtain ⟨_ | _⟩ := h <;> cases fuel <;> rfl

/-- C3 fails on the code: for the struct type `Test` as the type
of an object, the walk that builds the table of `writeFile` has no defined
result with any amount of fuel, so no type id is assigned. -/
theorem C3_struct_table_undefined (fuel : Nat) :
    recurseTypes testHeap fuel ([(3, 0)].map Prod.fst) [] = none := by
  cases fuel <;> rfl

/-- C4 fails on the code: for the root `Test` and an empty map,
`writeSchema` has no defined result on any host, for any writer and any amount
of fuel, so neither a count nor a record is emitted. -/
theorem C4_struct_schema_undefined (h : Host) (fuel : Nat) (w : writer) :
    writeSchema h testHeap fuel w [3] [] = none := by
  cases fuel <;> rfl

/-- C5 fails on the code: the walk from the struct `Node`, and
the walk from the pointer to `Node`, have no defined result with any amount of
fuel; the walk stops in the `STRUCT` branch after the name `Node` was
inserted. -/
theorem C5_node_walk_undefined (fuel : Nat) :
    recurseType nodeHeap fuel 0 [] = none ∧ recurseType nodeHeap fuel 1 [] = none := by
  rcases fuel with _ | _ | fuel <;> exact ⟨rfl, rfl⟩

/-! ## C6: reachable descriptors and the table -/

/-- C8: a `NumericType` of each of the ten numeric kinds reports its width in
bytes as `getSize()` and the listed name as `getName()`; the unsigned kind of
every width has the name of the signed kind. -/
theorem C8_numeric_size_and_name (H : Heap) (fuel : Nat) :
    (getSize (.NumericType .INT8 :: H) (fuel + 1) 0 = some 1 ∧
      (TypeBase.NumericType .INT8).getName = ascii "int8") ∧
    (getSize (.NumericType .INT16 :: H) (fuel + 1) 0 = some 2 ∧
      (TypeBase.NumericType .INT16).getName = ascii "int16") ∧
    (getSize (.NumericType .INT32 :: H) (fuel + 1) 0 = some 4 ∧
      (TypeBase.NumericType .INT32).getName = ascii "int32") ∧
    (getSize (.NumericType .INT64 :: H) (fuel + 1) 0 = some 8 ∧
      (TypeBase.NumericType .INT64).getName = ascii "int64") ∧
    (getSize (.NumericType .UINT8 :: H) (fuel + 1) 0 = some 1 ∧
      (TypeBase.NumericType .UINT8).getName = ascii "int8") ∧
    (getSize (.NumericType .UINT16 :: H) (fuel + 1) 0 = some 2 ∧
      (TypeBase.NumericType .UINT16).getName = ascii "int16") ∧
    (getSize (.NumericType .UINT32 :: H) (fuel + 1) 0 = some 4 ∧
      (TypeBase.NumericType .UINT32).getName = ascii "int32") ∧
    (getSize (.NumericType .UINT64 :: H) (fuel + 1) 0 = some 8 ∧
      (TypeBase.NumericType .UINT64).getName = ascii "int64") ∧
    (getSize (.NumericType .FLOAT32 :: H) (fuel + 1) 0 = some 4 ∧
      (TypeBase.NumericType .FLOAT32).getName = ascii "float32") ∧
    (getSize (.NumericType .FLOAT64 :: H) (fuel + 1) 0 = some 8 ∧
      (TypeBase.NumericType .FLOAT64).getName = ascii "float64") ∧
    (TypeBase.NumericType .UINT8).getName = (TypeBase.NumericType .INT8).getName ∧
    (TypeBase.NumericType .UINT16).getName = (TypeBase.NumericType .INT16).getName ∧
    (TypeBase.NumericType .UINT32).getName = (TypeBase.NumericType .INT32).getName ∧
    (TypeBase.NumericType .UINT64).getName = (TypeBase.NumericType .INT64).getName := by
  have hs : ∀ t, getSize (.NumericType t :: H) (fuel + 1) 0 = some (NumericType_size t) := by
    intro t
    simp [getSize]
  simp only [hs]
  decide

/-! ## C9: arrays -/

theorem wrap_int_of_range (n : Int) (h0 : -2147483648 ≤ n) (h1 : n < 2147483648) :
    wrap_int n = n := by
  unfold wrap_int
  omega

/-- C9, as stated, fails: the constructor `ArrayType(2147483647, e)` over the
descriptor `int32` builds the descriptor named `int32[2147483647]` of
`longArrayHeap`; the size of the element is 4, the size times the length is
8589934588, and `getSize()`, which multiplies two `int` values, is -4. -/
theorem C9_size_overflows :
    ArrayType_new longArrayHeap 2147483647 0 = longArrayHeap[1]? ∧
    longArrayHeap[1]?.map TypeBase.getName = some (ascii "int32[2147483647]") ∧
    getSize longArrayHeap 1 0 = some 4 ∧
    (4 : Int) * 2147483647 = 8589934588 ∧
    getSize longArrayHeap 2 1 = some (-4) := by
  decide

/-- C9, amended: for every element descriptor in the store and every length
`n`, the constructor `ArrayType(n, e)` builds a descriptor whose canonical name
is the canonical name of the element followed by `[`, the decimal rendering of
`n` and `]` (the name holds no NUL, so `getName()` returns all of it).  In any
store that holds the descriptor, `getSize()` is the size of the element times
`n` reduced to an `int` of 32 bits, which is the size of the element times `n`
whenever that product is an `int`. -/
theorem C9_array_name_and_size (H : Heap) (e : Nat) (n : Int) (sub : TypeBase)
    (he : H[e]? = some sub) :
    ∃ arr, ArrayType_new H n e = some arr ∧
      arr.getName = sub.getName ++ ascii "[" ++ sprintf_d n ++ ascii "]" ∧
      ∀ (H1 : Heap) (a fuel : Nat) (s : Int), H1[a]? = some arr →
        getSize H1 fuel e = some s →
          getSize H1 (fuel + 1) a = some (wrap_int (s * n)) ∧
          (-2147483648 ≤ s * n → s * n < 2147483648 →
            getSize H1 (fuel + 1) a = some (s * n)) := by
  refine ⟨.ArrayType n e (sub.getName ++ (ascii "[" ++ sprintf_d n ++ ascii "]")),
    by simp [ArrayType_new, he], ?_, ?_⟩
  · show c_str _ = _
    rw [c_str_eq_self]
    · simp
    · intro c hc
      simp only [List.mem_append] at hc
      rcases hc with hc | (hc | hc) | hc
      · exact getName_ne_zero sub c hc
      · have : ∀ c ∈ ascii "[", c ≠ 0 := by decide
        exact this c hc
      · exact sprintf_d_ne_zero n c hc
      · have : ∀ c ∈ ascii "]", c ≠ 0 := by decide
        exact this c hc
  · intro H1 a fuel s ha hs
    have h1 : getSize H1 (fuel + 1) a = some (wrap_int (s * n)) := by
      simp [getSize, ha, hs]
    refine ⟨h1, ?_⟩
    intro h0 h2
    rw [h1, wrap_int_of_range _ h0 h2]

/-- Witness of C9: an array of length 10 over a descriptor named `int32` has
the name `int32[10]` and the size 40. -/
theorem C9_array_name_and_size_witness :
    ∃ arr, ArrayType_new arrayHeap 10 0 = some arr ∧
      arr.getName = ascii "int32[10]" ∧
      getSize arrayHeap 2 1 = some 40 := by
  obtain ⟨arr, h1, h2, h3⟩ := C9_array_name_and_size arrayHeap 0 10 (.NumericType .INT32) rfl
  refine ⟨arr, h1, ?_, ?_⟩
  · rw [h2]; decide
  · have h4 : arrayHeap[1]? = some arr := by rw [← h1]; decide
    exact (h3 arrayHeap 1 1 4 h4 (by decide)).2 (by decide) (by decide)

/-! ## C10: signed and unsigned kinds on the wire -/

/-- C10, as stated, fails: on a little-endian host the bytes `writeSchema` emits
for the single root `NumericType(UINT32)` end with the kind tag 34, those for
`NumericType(INT32)` with the kind tag 2; `serialize` differs in the same
way. -/
theorem C10_unsigned_tag_differs :
    (writeSchema ⟨true⟩ [.NumericType .UINT32] 1 {} [0] []).map (fun r => r.1.bytes) =
      some [some 1, some 0, some 0, some 0, some 34, some 0, some 0, some 0] ∧
    (writeSchema ⟨true⟩ [.NumericType .INT32] 1 {} [0] []).map (fun r => r.1.bytes) =
      some [some 1, some 0, some 0, some 0, some 2, some 0, some 0, some 0] ∧
    (serialize ⟨true⟩ [] (.NumericType .UINT32) {}).map writer.bytes ≠
      (serialize ⟨true⟩ [] (.NumericType .INT32) {}).map writer.bytes := by
  decide

/-- C10, amended: for every integer width, on every host, the single root
`NumericType(UINTw)` and the single root `NumericType(INTw)` give `writeSchema`
the same table key and the same count, and `serialize` appends four bytes for
each; the bytes are identical except for the kind tag, which for the unsigned
kind is the tag of the signed kind with `UNSIGNED_BIT` set, so the two byte
sequences differ. -/
theorem C10_signed_unsigned_differ_in_tag_only (h : Host) (fuel : Nat) :
    sameButTag h (fuel + 1) .INT8 .UINT8 ∧ sameButTag h (fuel + 1) .INT16 .UINT16 ∧
    sameButTag h (fuel + 1) .INT32 .UINT32 ∧ sameButTag h (fuel + 1) .INT64 .UINT64 := by
  obtain ⟨_ | _⟩ := h <;>
    exact ⟨⟨rfl, rfl, rfl, rfl, by decide⟩, ⟨rfl, rfl, rfl, rfl, by decide⟩,
      ⟨rfl, rfl, rfl, rfl, by decide⟩, ⟨rfl, rfl, rfl, rfl, by decide⟩⟩

/-! ## Sequences of appends -/

namespace writer

theorem bytes_length (w : writer) (hw : w.Ok) : w.bytes.length = w.cur_.toNat := by
  obtain ⟨buf, size, cap, cur⟩ := w
  obtain ⟨h0, h1, h2⟩ := hw
  simp only at h0 h1 h2
  cases buf with
  | none =>
    simp only at h2
    simp only [bytes, List.length_nil]
    omega
  | some b =>
    simp only at h2
    simp only [bytes, List.length_take]
    omega

/-- One block of an append: `grow_size(n)` followed by the stores of at most `n`
bytes.  After the growth the stores fit below the size, which is below the
capacity of the allocation in use; the block returns, keeps the invariant and
extends the cells below the cursor by the bytes. -/
theorem block_spec (w : writer) (n : Int) (cs : List Nat) (hw : w.Ok)
    (hn : (cs.length : Int) ≤ n) :
    ∃ w1 b1 w2 b2, w.grow_size n = some w1 ∧ w1.buf_ = some b1 ∧
      (b1.length : Int) = w1.capacity_ ∧ w1.cur_ = w.cur_ ∧
      w1.cur_ + cs.length ≤ w1.size_ ∧ w1.size_ < w1.capacity_ ∧
      w1.putAll cs = some w2 ∧ w2.buf_ = some b2 ∧ w2.Ok ∧
      w2.bytes = w.bytes ++ cs.map some ∧ w2.cur_ = w.cur_ + cs.length := by
  obtain ⟨w1, b1, hg, hb, hcur, hsize, hlt, hcap, htake⟩ :=
    grow_size_spec w n hw (by omega)
  obtain ⟨h0, h1, -⟩ := hw
  obtain ⟨b2, hp, hlen, htk⟩ := putAll_spec cs w1 b1 hb (by omega) (by omega)
  refine ⟨w1, b1, _, b2, hg, hb, hcap.symm, hcur, by omega, hlt, hp, rfl, ⟨?_, ?_, ?_⟩, ?_, ?_⟩
  · simp only; omega
  · simp only; omega
  · simp only; omega
  · simp only [bytes]
    have e : (w1.cur_ + (cs.length : Int)).toNat = w1.cur_.toNat + cs.length := by omega
    rw [e, htk, hcur, htake]
    rfl
  · simp only [hcur]

/-- Return of one block, in the form the operations use it. -/
theorem block_bind (w : writer) (n : Int) (cs : List Nat) (hw : w.Ok)
    (hn : (cs.length : Int) ≤ n) :
    ∃ w2, (w.grow_size n).bind (fun w1 => w1.putAll cs) = some w2 ∧ w2.Ok ∧
      w2.buf_.isSome = true ∧ w2.bytes = w.bytes ++ cs.map some ∧
      w2.cur_ = w.cur_ + cs.length := by
  obtain ⟨w1, b1, w2, b2, h1, -, -, -, -, -, h2, h3, h4, h5, h6⟩ := block_spec w n cs hw hn
  exact ⟨w2, by rw [h1, Option.some_bind, h2], h4, by rw [h3]; rfl, h5, h6⟩

/-- The member `align` with `n > 0` returns; it keeps the cursor and the
cells below it and only raises the size. -/
theorem align_spec (w : writer) (n : Int) (hw : w.Ok) (hn : 0 < n) :
    ∃ w1, w.align n = some w1 ∧ w1.Ok ∧ w1.buf_.isSome = true ∧ w1.bytes = w.bytes ∧
      w1.cur_ = w.cur_ ∧ w1.size_ = w.size_ + (n - Int.tmod w.cur_ n) := by
  have h0 : 0 ≤ w.cur_ := hw.1
  have hm : Int.tmod w.cur_ n < n := Int.tmod_lt_of_pos _ hn
  obtain ⟨w1, b1, hg, hb, hcur, hsize, hlt, hcap, htake⟩ :=
    grow_size_spec w (n - Int.tmod w.cur_ n) hw (by omega)
  refine ⟨w1, ?_, ⟨by omega, ?_, ?_⟩, by rw [hb]; rfl, ?_, hcur, hsize⟩
  · unfold align
    rw [if_neg (by omega)]
    exact hg
  · have := hw.2.1
    omega
  · rw [hb]
    exact ⟨hlt, hcap⟩
  · simp only [bytes, hb, hcur]
    exact htake

end writer

/-- An append operation with sizes in range, from a writer that satisfies the
invariant, returns; the writer then has an allocation, satisfies the invariant
again, and the cells below the old cursor are the same. -/
theorem Op_apply_spec (h : Host) (mem : Nat → Nat) (w : writer) (op : Op) (hw : w.Ok)
    (hop : op.sized = true) :
    ∃ w1 rest, op.apply h mem w = some w1 ∧ w1.Ok ∧ w1.buf_.isSome = true ∧
      w1.bytes = w.bytes ++ rest := by
  cases op with
  | shl_int n =>
    obtain ⟨w1, h1, h2, h3, h4, -⟩ := writer.block_bind w 4 (objectRep h 4 n) hw
      (by simp [objectRep_length])
    exact ⟨w1, _, h1, h2, h3, h4⟩
  | shl_int64 n =>
    obtain ⟨w1, h1, h2, h3, h4, -⟩ := writer.block_bind w sizeof_voidp
      ((objectRep h 8 n).take sizeof_voidp) hw (by simp [objectRep_length, sizeof_voidp])
    exact ⟨w1, _, h1, h2, h3, h4⟩
  | shl_string s =>
    obtain ⟨w1, h1, h2, -, h4, -⟩ := writer.block_bind w 4 (objectRep h 4 s.length) hw
      (by simp [objectRep_length])
    obtain ⟨w2, g1, g2, g3, g4, -⟩ := writer.block_bind w1 s.length s h2 (le_refl _)
    refine ⟨w2, (objectRep h 4 s.length).map some ++ s.map some, ?_, g2, g3, ?_⟩
    · have e : writer.shl_int h w s.length = some w1 := h1
      simp only [Op.apply, writer.shl_string, e, Option.some_bind]
      exact g1
    · rw [g4, h4, List.append_assoc]
  | dump ptr size =>
    simp only [Op.sized, decide_eq_true_eq] at hop
    obtain ⟨w1, h1, h2, h3, h4, -⟩ := writer.block_bind w size
      ((List.range size.toNat).map fun i => mem (ptr + i)) hw
      (by simp only [List.length_map, List.length_range]; omega)
    exact ⟨w1, _, h1, h2, h3, h4⟩
  | align n =>
    simp only [Op.sized, decide_eq_true_eq] at hop
    obtain ⟨w1, h1, h2, h3, h4, -, -⟩ := writer.align_spec w n hw hop
    exact ⟨w1, [], h1, h2, h3, by rw [h4, List.append_nil]⟩

/-- A sequence of append operations with sizes in range, from a writer that
satisfies the invariant, returns; the invariant holds at the end, the cells
below the old cursor are the same, and after at least one operation the writer
has an allocation. -/
theorem run_spec (h : Host) (mem : Nat → Nat) (ops : List Op) (w : writer) (hw : w.Ok)
    (hops : ∀ op ∈ ops, op.sized = true) :
    ∃ w1 rest, run h mem w ops = some w1 ∧ w1.Ok ∧ w1.bytes = w.bytes ++ rest ∧
      (ops ≠ [] → w1.buf_.isSome = true) := by
  induction ops generalizing w with
  | nil => exact ⟨w, [], rfl, hw, by simp, by simp⟩
  | cons op ops ih =>
    obtain ⟨w1, r1, h1, h2, h3, h4⟩ := Op_apply_spec h mem w op hw (hops op (by simp))
    obtain ⟨w2, r2, g1, g2, g3, g4⟩ := ih w1 h2 (fun x hx => hops x (by simp [hx]))
    refine ⟨w2, r1 ++ r2, ?_, g2, by rw [g3, h4, List.append_assoc], ?_⟩
    · simp only [run, List.foldlM_cons, h1, Option.bind_eq_bind, Option.some_bind]
      exact g1
    · intro _
      cases ops with
      | nil =>
        simp only [run, List.foldlM_nil, Option.pure_def, Option.some.injEq] at g1
        rw [← g1]
        exact h3
      | cons o os => exact g4 (by simp)

/-- A cell below the cursor, read through `bytes`. -/
theorem cell_of_bytes (w : writer) (hw : w.Ok) (i : Nat) (hi : i < w.cur_.toNat) :
    w.bytes[i]? = some (w.cell i) := by
  obtain ⟨buf, size, cap, cur⟩ := w
  obtain ⟨h0, h1, h2⟩ := hw
  simp only at h0 h1 h2 hi
  cases buf with
  | none =>
    simp only at h2
    omega
  | some b =>
    simp only at h2
    have hb : i < b.length := by omega
    simp [writer.bytes, writer.cell, List.getElem?_take, hi, List.getD_eq_getElem?_getD,
      List.getElem?_eq_getElem hb]

/-- Cells below the old cursor survive whatever is appended behind them. -/
theorem cell_of_append (w w1 : writer) (rest : List (Option Nat)) (hw : w.Ok) (hw1 : w1.Ok)
    (hb : w1.bytes = w.bytes ++ rest) (i : Nat) (hi : i < w.cur_.toNat) :
    w1.cell i = w.cell i := by
  have hl := writer.bytes_length w hw
  have hl1 := writer.bytes_length w1 hw1
  have hlen : w.cur_.toNat ≤ w1.cur_.toNat := by
    rw [← hl, ← hl1, hb, List.length_append]
    omega
  have e1 := cell_of_bytes w1 hw1 i (by omega)
  have e2 := cell_of_bytes w hw i hi
  rw [hb, List.getElem?_append_left (by omega), e2] at e1
  exact (Option.some.inj e1).symm

/-! ## The members with `int` of 32 bits -/

namespace writer

/-- Within `sizeLimit`, the capacity computed in 32 bits is the exact one:
`ensure_size` in 32 bits is `ensure_size` with exact integers. -/
theorem ensure_size_i32_eq (w : writer) (size : Int) (h0 : 0 ≤ size)
    (h1 : size ≤ sizeLimit) : w.ensure_size_i32 size = w.ensure_size size := by
  unfold sizeLimit at h1
  have e1 : wrap_int (size + 1) = size + 1 :=
    wrap_int_of_range _ (by omega) (by omega)
  have e2 : wrap_int (((size + 1) >>> (1 : Nat)) + (size + 1)) =
      ((size + 1) >>> (1 : Nat)) + (size + 1) := by
    apply wrap_int_of_range
    · rw [Int.shiftRight_eq_div_pow]
      norm_num
      omega
    · rw [Int.shiftRight_eq_div_pow]
      norm_num
      omega
  unfold ensure_size_i32 ensure_size
  simp only [e1, e2]

theorem grow_size_i32_eq (w : writer) (n : Int) (h0 : 0 ≤ w.size_ + n)
    (h1 : w.size_ + n ≤ sizeLimit) : w.grow_size_i32 n = w.grow_size n := by
  unfold sizeLimit at h1
  unfold grow_size_i32 grow_size
  rw [wrap_int_of_range _ (by omega) (by omega)]
  exact ensure_size_i32_eq w _ h0 (by unfold sizeLimit; omega)

theorem shl_int_i32_eq (h : Host) (w : writer) (n : Int) (hw : w.Ok)
    (hfit : w.size_ + 4 ≤ sizeLimit) : shl_int_i32 h w n = shl_int h w n := by
  have h0 := hw.1
  have h1 := hw.2.1
  unfold shl_int_i32 shl_int
  rw [grow_size_i32_eq w 4 (by omega) hfit]

theorem shl_int64_i32_eq (h : Host) (w : writer) (n : Int) (hw : w.Ok)
    (hfit : w.size_ + sizeof_voidp ≤ sizeLimit) : shl_int64_i32 h w n = shl_int64 h w n := by
  have h0 := hw.1
  have h1 := hw.2.1
  unfold shl_int64_i32 shl_int64
  rw [grow_size_i32_eq w sizeof_voidp (by simp only [sizeof_voidp]; omega) hfit]

/-- The size after `operator<<(int)`. -/
theorem shl_int_size (h : Host) (w w1 : writer) (n : Int) (hw : w.Ok)
    (h1 : shl_int h w n = some w1) : w1.Ok ∧ w1.size_ = w.size_ + 4 := by
  obtain ⟨w2, g1, g2, -, -, g5⟩ := append_spec w (objectRep h 4 n) 4
    (by simp [objectRep_length]) hw
  unfold shl_int at h1
  rw [g1] at h1
  cases h1
  refine ⟨g2, ?_⟩
  rw [g5, objectRep_length]
  rfl

theorem shl_string_i32_eq (h : Host) (w : writer) (s : List Nat) (hw : w.Ok)
    (hfit : w.size_ + 4 + s.length ≤ sizeLimit) :
    shl_string_i32 h w s = shl_string h w s := by
  have h0 := hw.1
  have h1 := hw.2.1
  have hl : wrap_int s.length = s.length := by
    unfold sizeLimit at hfit
    exact wrap_int_of_range _ (by omega) (by omega)
  unfold shl_string_i32 shl_string
  rw [hl, shl_int_i32_eq h w _ hw (by omega)]
  cases hsi : shl_int h w s.length with
  | none => rfl
  | some w1 =>
    obtain ⟨o1, s1⟩ := shl_int_size h w w1 _ hw hsi
    simp only [Option.some_bind]
    rw [grow_size_i32_eq w1 s.length (by omega) (by omega)]

theorem align_i32_eq (w : writer) (n : Int) (hw : w.Ok) (hn : 0 < n)
    (hfit : w.size_ + n ≤ sizeLimit) : w.align_i32 n = w.align n := by
  have h0 := hw.1
  have h1 := hw.2.1
  have hm : Int.tmod w.cur_ n < n := Int.tmod_lt_of_pos _ hn
  have hm0 : 0 ≤ Int.tmod w.cur_ n := Int.tmod_nonneg _ h0
  unfold align_i32 align
  rw [if_neg (by omega), if_neg (by omega)]
  have hl : wrap_int (n - Int.tmod w.cur_ n) = n - Int.tmod w.cur_ n := by
    unfold sizeLimit at hfit
    exact wrap_int_of_range _ (by omega) (by omega)
  rw [hl]
  exact grow_size_i32_eq w _ (by omega) (by omega)

theorem dump_i32_eq (mem : Nat → Nat) (w : writer) (ptr : Nat) (size : Int) (hw : w.Ok)
    (hs : 0 ≤ size) (hfit : w.size_ + size ≤ sizeLimit) :
    dump_i32 mem w ptr size = dump mem w ptr size := by
  have h0 := hw.1
  have h1 := hw.2.1
  unfold dump_i32 dump
  rw [grow_size_i32_eq w size (by omega) hfit]

/-- The size after `dump`. -/
theorem dump_size (mem : Nat → Nat) (w w1 : writer) (ptr : Nat) (size : Int) (hw : w.Ok)
    (hs : 0 ≤ size) (h1 : dump mem w ptr size = some w1) : w1.size_ = w.size_ + size := by
  obtain ⟨w2, g1, -, -, -, g5⟩ := append_spec w
    ((List.range size.toNat).map fun i => mem (ptr + i)) size
    (by simp only [List.length_map, List.length_range]; omega) hw
  unfold dump at h1
  rw [g1] at h1
  cases h1
  rw [g5]
  simp only [List.length_map, List.length_range]
  omega

/-- A loop of stores through a null `buf_` has no defined result. -/
theorem putAll_null (w : writer) (cs : List Nat) (hb : w.buf_ = none) (hc : cs ≠ []) :
    w.putAll cs = none := by
  cases cs with
  | nil => exact absurd rfl hc
  | cons c cs => simp [putAll, List.foldlM_cons, put, hb]

/-- When the `int` is stored and the growth for the characters has no defined
result, `operator<<(const std::string&)` has none. -/
theorem shl_string_i32_fail (h : Host) (w w1 : writer) (s : List Nat) (n : Int)
    (hn : (s.length : Int) = n) (he : shl_int_i32 h w (wrap_int n) = some w1)
    (hg : w1.grow_size_i32 (wrap_int n) = none) : shl_string_i32 h w s = none := by
  unfold shl_string_i32
  rw [hn, he, Option.some_bind, hg]
  rfl

/-- When the growth leaves `buf_` null, `dump` of at least one byte has no
defined result. -/
theorem dump_i32_null (mem : Nat → Nat) (w w1 : writer) (ptr : Nat) (size : Int)
    (hg : w.grow_size_i32 size = some w1) (hb : w1.buf_ = none) (hs : 0 < size) :
    dump_i32 mem w ptr size = none := by
  unfold dump_i32
  rw [hg, Option.some_bind]
  apply putAll_null _ _ hb
  intro hc
  have := congrArg List.length hc
  simp only [List.length_map, List.length_range, List.length_nil] at this
  omega

end writer

theorem Op_extent_nonneg (op : Op) (hop : op.sized = true) : 0 ≤ op.extent := by
  cases op with
  | shl_int n => simp [Op.extent]
  | shl_int64 n => simp [Op.extent, sizeof_voidp]
  | shl_string s => simp only [Op.extent]; omega
  | dump ptr size => simpa [Op.sized, Op.extent] using hop
  | align n =>
    simp only [Op.sized, decide_eq_true_eq] at hop
    simp only [Op.extent]
    omega

theorem extent_nonneg (ops : List Op) (hops : ∀ op ∈ ops, op.sized = true) :
    0 ≤ extent ops := by
  induction ops with
  | nil => simp [extent]
  | cons op ops ih =>
    have h1 := Op_extent_nonneg op (hops op (by simp))
    have h2 := ih (fun x hx => hops x (by simp [hx]))
    simp only [extent, List.map_cons, List.sum_cons] at h2 ⊢
    omega

theorem extent_cons (op : Op) (ops : List Op) : extent (op :: ops) = op.extent + extent ops := by
  simp [extent]

/-- A call with sizes in range raises `size_` by at most its extent. -/
theorem Op_apply_size (h : Host) (mem : Nat → Nat) (w w1 : writer) (op : Op) (hw : w.Ok)
    (hop : op.sized = true) (h1 : op.apply h mem w = some w1) :
    w1.size_ ≤ w.size_ + op.extent := by
  cases op with
  | shl_int n =>
    have := (writer.shl_int_size h w w1 n hw h1).2
    simp only [Op.extent]
    omega
  | shl_int64 n =>
    obtain ⟨w2, g1, -, -, -, g5⟩ := writer.append_spec w ((objectRep h 8 n).take sizeof_voidp)
      sizeof_voidp (by simp [objectRep_length, sizeof_voidp]) hw
    simp only [Op.apply, writer.shl_int64] at h1
    rw [g1] at h1
    cases h1
    rw [g5]
    simp [Op.extent, objectRep_length, sizeof_voidp]
  | shl_string s =>
    simp only [Op.apply, writer.shl_string] at h1
    cases hsi : writer.shl_int h w s.length with
    | none => rw [hsi] at h1; simp at h1
    | some w2 =>
      obtain ⟨o2, s2⟩ := writer.shl_int_size h w w2 _ hw hsi
      rw [hsi, Option.some_bind] at h1
      obtain ⟨w3, g1, -, -, -, g5⟩ := writer.append_spec w2 s s.length rfl o2
      rw [g1] at h1
      cases h1
      rw [g5, s2]
      simp only [Op.extent]
      omega
  | dump ptr size =>
    simp only [Op.sized, decide_eq_true_eq] at hop
    have := writer.dump_size mem w w1 ptr size hw hop h1
    simp only [Op.extent]
    omega
  | align n =>
    simp only [Op.sized, decide_eq_true_eq] at hop
    obtain ⟨w2, g1, -, -, -, -, g6⟩ := writer.align_spec w n hw hop
    simp only [Op.apply] at h1
    rw [g1] at h1
    cases h1
    have hm0 : 0 ≤ Int.tmod w.cur_ n := Int.tmod_nonneg _ hw.1
    simp only [Op.extent]
    omega

/-- A call with sizes in range that keeps the size within `sizeLimit` does in
32 bits what it does with exact integers. -/
theorem Op_apply_i32_eq (h : Host) (mem : Nat → Nat) (w : writer) (op : Op) (hw : w.Ok)
    (hop : op.sized = true) (hfit : w.size_ + op.extent ≤ sizeLimit) :
    op.apply_i32 h mem w = op.apply h mem w := by
  cases op with
  | shl_int n => exact writer.shl_int_i32_eq h w n hw hfit
  | shl_int64 n => exact writer.shl_int64_i32_eq h w n hw hfit
  | shl_string s =>
    exact writer.shl_string_i32_eq h w s hw (by simp only [Op.extent] at hfit; omega)
  | dump ptr size =>
    simp only [Op.sized, decide_eq_true_eq] at hop
    exact writer.dump_i32_eq mem w ptr size hw hop hfit
  | align n =>
    simp only [Op.sized, decide_eq_true_eq] at hop
    exact writer.align_i32_eq w n hw hop hfit

/-- A sequence of calls with sizes in range whose extents fit below `sizeLimit`
does in 32 bits what it does with exact integers, and the size it reaches is
at most the size at the start plus the extents. -/
theorem run_i32_eq (h : Host) (mem : Nat → Nat) (ops : List Op) (w : writer) (hw : w.Ok)
    (hops : ∀ op ∈ ops, op.sized = true) (hfit : w.size_ + extent ops ≤ sizeLimit) :
    run_i32 h mem w ops = run h mem w ops ∧
      ∀ w1, run h mem w ops = some w1 → w1.size_ ≤ w.size_ + extent ops := by
  induction ops generalizing w with
  | nil =>
    refine ⟨rfl, ?_⟩
    intro w1 h1
    simp only [run, List.foldlM_nil, Option.pure_def, Option.some.injEq] at h1
    rw [← h1]
    simp [extent]
  | cons op ops ih =>
    have hrest : ∀ x ∈ ops, x.sized = true := fun x hx => hops x (by simp [hx])
    have e0 := Op_extent_nonneg op (hops op (by simp))
    have e1 := extent_nonneg ops hrest
    rw [extent_cons] at hfit ⊢
    obtain ⟨w1, r1, a1, a2, -, -⟩ := Op_apply_spec h mem w op hw (hops op (by simp))
    have hsz := Op_apply_size h mem w w1 op hw (hops op (by simp)) a1
    have heq := Op_apply_i32_eq h mem w op hw (hops op (by simp)) (by omega)
    obtain ⟨i1, i2⟩ := ih w1 a2 hrest (by omega)
    refine ⟨?_, ?_⟩
    · simp only [run_i32, run, List.foldlM_cons, heq, a1, Option.bind_eq_bind,
        Option.some_bind]
      exact i1
    · intro w2 h2
      simp only [run, List.foldlM_cons, a1, Option.bind_eq_bind, Option.some_bind] at h2
      have := i2 w2 h2
      omega

/-! ## C12: appending a string -/

theorem wire_int_of_nat (h : Host) (k : Nat) (hk : k < 2 ^ 32) :
    wire_int h k = if h.little then leBytes 4 k else (leBytes 4 k).reverse := by
  have e : ((k : Int) % (2 : Int) ^ (8 * 4)).toNat = k := by
    have : (2 : Int) ^ (8 * 4) = 4294967296 := by norm_num
    rw [this]
    have hk' : k < 4294967296 := by simpa using hk
    omega
  simp only [wire_int, objectRep, e]

/-- With exact integers: for every writer whose state satisfies the invariant
and every string `s` shorter than `2 ^ 31`, `operator<<(const std::string&)`
returns and appends exactly `4 + |s|` bytes at the cursor: the four bytes of
`|s|` in host order, then the characters of `s` in order, no terminator; the
cursor advances by `4 + |s|`, and every cell below the old cursor keeps its
value. -/
theorem shl_string_append (h : Host) (w : writer) (s : List Nat) (hw : w.Ok)
    (hs : s.length < 2 ^ 31) :
    ∃ w1, writer.shl_string h w s = some w1 ∧
      w.bytes.length = w.cur_.toNat ∧
      w1.bytes = w.bytes ++
        ((if h.little then leBytes 4 s.length else (leBytes 4 s.length).reverse) ++ s).map some ∧
      w1.cur_ = w.cur_ + 4 + s.length ∧
      ∀ j, j < w.cur_.toNat → w1.cell j = w.cell j := by
  obtain ⟨w1, h1, h2, h3⟩ := writer.shl_string_spec h w s hw
  have hl := writer.bytes_length w hw
  have hl1 := writer.bytes_length w1 h2
  have hlen : (wire_string h s).length = 4 + s.length := by
    simp [wire_string, wire_int_length]
  refine ⟨w1, h1, hl, ?_, ?_, ?_⟩
  · rw [h3, wire_string, wire_int_of_nat h s.length (by omega)]
  · have h0 := hw.1
    have h0' := h2.1
    rw [h3, List.length_append, List.length_map, hlen, hl] at hl1
    omega
  · intro j hj
    exact cell_of_append w w1 _ hw h2 h3 j hj

/-- C12, as stated, fails on two kinds of input.  A writer state outside the
invariant: `align(-8)` on a fresh writer returns with no buffer and the size
-8, and the string `SAVE` appended in that state stores through the null
`buf_`.  A string shorter than `2 ^ 31` that is too long: for a string of
1431655761 characters appended to a fresh writer, `ensure_size(1431655765)`
computes the capacity 2147483649 in `int`, `malloc` gets the negative value
and returns null, and `memcpy` copies into it. -/
theorem C12_string_outside_domain :
    writer.align_i32 {} (-8) = some ⟨none, -8, 0, 0⟩ ∧
    writer.shl_string_i32 ⟨true⟩ ⟨none, -8, 0, 0⟩ (ascii "SAVE") = none ∧
    (List.replicate 1431655761 0).length < 2 ^ 31 ∧
    writer.shl_string_i32 ⟨true⟩ {} (List.replicate 1431655761 0) = none := by
  refine ⟨by decide, by decide, by rw [List.length_replicate]; norm_num, ?_⟩
  exact writer.shl_string_i32_fail ⟨true⟩ {}
    ⟨some [some 81, some 85, some 85, some 85, none, none, none], 4, 7, 4⟩ _ 1431655761
    (by rw [List.length_replicate]; rfl) (by decide) (by decide)

/-- C12, amended: for every writer whose state satisfies the invariant and every
string `s` with `size_ + 4 + |s|` at most `sizeLimit`, the member
`operator<<(const std::string&)`, computed with `int` of 32 bits, returns and
appends exactly `4 + |s|` bytes at the cursor: the four bytes of `|s|` in host
order, then the characters of `s` in order, no terminator; the cursor advances
by `4 + |s|`, and every cell below the old cursor keeps its value. -/
theorem C12_string_append (h : Host) (w : writer) (s : List Nat) (hw : w.Ok)
    (hfit : w.size_ + 4 + s.length ≤ sizeLimit) :
    ∃ w1, writer.shl_string_i32 h w s = some w1 ∧
      w.bytes.length = w.cur_.toNat ∧
      w1.bytes = w.bytes ++
        ((if h.little then leBytes 4 s.length else (leBytes 4 s.length).reverse) ++ s).map some ∧
      w1.cur_ = w.cur_ + 4 + s.length ∧
      ∀ j, j < w.cur_.toNat → w1.cell j = w.cell j := by
  have h0 := hw.1
  have h1 := hw.2.1
  rw [writer.shl_string_i32_eq h w s hw hfit]
  exact shl_string_append h w s hw (by
    unfold sizeLimit at hfit
    have : (s.length : Int) < 2147483648 := by omega
    have e : (2 : Nat) ^ 31 = 2147483648 := by norm_num
    rw [e]
    omega)

/-- Witness of C12: the string `SAVE` appended to a fresh writer on a
little-endian host. -/
theorem C12_string_append_witness :
    ∃ w1, writer.shl_string_i32 ⟨true⟩ {} (ascii "SAVE") = some w1 ∧
      ({} : writer).bytes.length = ({} : writer).cur_.toNat ∧
      w1.bytes = ({} : writer).bytes ++
        ((if (⟨true⟩ : Host).little then leBytes 4 (ascii "SAVE").length
          else (leBytes 4 (ascii "SAVE").length).reverse) ++ ascii "SAVE").map some ∧
      w1.cur_ = ({} : writer).cur_ + 4 + (ascii "SAVE").length ∧
      ∀ j, j < ({} : writer).cur_.toNat → w1.cell j = ({} : writer).cell j :=
  C12_string_append ⟨true⟩ {} (ascii "SAVE") Ok_fresh (by decide)

/-! ## C13: what `dump` stored stays where it is -/

/-- With exact integers: in every state reached from a fresh writer by append
operations with sizes in range, `dump(ptr, N)` with `N >= 0` returns and stores
the `N` source bytes at the offsets `c .. c + N - 1`, `c` the cursor before the
call; after any
further sequence of append operations with sizes in range those offsets still
hold the `N` bytes, and every cell below the cursor reached by `dump` keeps its
value. -/
theorem dump_round_trip (h : Host) (mem : Nat → Nat) (before after : List Op)
    (ptr : Nat) (N : Int) (hb : ∀ op ∈ before, op.sized = true)
    (ha : ∀ op ∈ after, op.sized = true) (hN : 0 ≤ N) :
    ∃ w0 w1 w2, run h mem {} before = some w0 ∧ writer.dump mem w0 ptr N = some w1 ∧
      run h mem w1 after = some w2 ∧
      (∀ i, i < N.toNat → w1.cell (w0.cur_.toNat + i) = some (mem (ptr + i)) ∧
        w2.cell (w0.cur_.toNat + i) = some (mem (ptr + i))) ∧
      (∀ j, j < w0.cur_.toNat → w1.cell j = w0.cell j) ∧
      (∀ j, j < w1.cur_.toNat → w2.cell j = w1.cell j) := by
  obtain ⟨w0, r0, h0, o0, -, -⟩ := run_spec h mem before {} Ok_fresh hb
  obtain ⟨w1, h1, o1, b1⟩ := writer.dump_spec mem w0 ptr N o0 hN
  obtain ⟨w2, r2, h2, o2, b2, -⟩ := run_spec h mem after w1 o1 ha
  have hl0 := writer.bytes_length w0 o0
  have hl1 := writer.bytes_length w1 o1
  have hcur : w1.cur_.toNat = w0.cur_.toNat + N.toNat := by
    rw [← hl1, b1, List.length_append, hl0]
    simp
  have key : ∀ i, i < N.toNat → w1.cell (w0.cur_.toNat + i) = some (mem (ptr + i)) := by
    intro i hi
    have e := cell_of_bytes w1 o1 (w0.cur_.toNat + i) (by omega)
    rw [b1, List.getElem?_append_right (by omega), hl0] at e
    simp only [Nat.add_sub_cancel_left, List.getElem?_map, List.getElem?_range hi,
      Option.map_some'] at e
    exact (Option.some.inj e).symm
  refine ⟨w0, w1, w2, h0, h1, h2, ?_, ?_, ?_⟩
  · intro i hi
    refine ⟨key i hi, ?_⟩
    rw [cell_of_append w1 w2 r2 o1 o2 b2 _ (by omega)]
    exact key i hi
  · intro j hj
    exact cell_of_append w0 w1 _ o0 o1 b1 j hj
  · intro j hj
    exact cell_of_append w1 w2 r2 o1 o2 b2 j hj

/-- C13, as stated, fails: on a fresh writer (the state reached by no append
operation) `dump(ptr, 1431655765)` asks `ensure_size` for the size 1431655765;
the capacity 2147483649 does not fit an `int` and becomes -2147483647, `malloc`
returns null for it, and the first store of the loop goes through the null
`buf_`: no byte is stored. -/
theorem C13_large_dump_lost :
    run_i32 ⟨true⟩ (fun a => a % 256) {} [] = some {} ∧
    writer.ensure_size_i32 {} 1431655765 = some ⟨none, 1431655765, -2147483647, 0⟩ ∧
    writer.dump_i32 (fun a => a % 256) {} 0 1431655765 = none := by
  refine ⟨rfl, by decide, ?_⟩
  exact writer.dump_i32_null _ {} ⟨none, 1431655765, -2147483647, 0⟩ 0 1431655765
    (by decide) rfl (by decide)

/-- C13, amended: for append operations with sizes in range whose extents,
together with `N`, add up to at most `sizeLimit`, computed with `int` of 32
bits: the operations before return from a fresh writer, `dump(ptr, N)` with
`N >= 0` returns and stores the `N` source bytes at the offsets
`c .. c + N - 1`, `c` the cursor before the call; the operations after return,
those offsets still hold the `N` bytes, and every cell below the cursor reached
by `dump` keeps its value. -/
theorem C13_dump_round_trip (h : Host) (mem : Nat → Nat) (before after : List Op)
    (ptr : Nat) (N : Int) (hb : ∀ op ∈ before, op.sized = true)
    (ha : ∀ op ∈ after, op.sized = true) (hN : 0 ≤ N)
    (hfit : extent before + N + extent after ≤ sizeLimit) :
    ∃ w0 w1 w2, run_i32 h mem {} before = some w0 ∧
      writer.dump_i32 mem w0 ptr N = some w1 ∧
      run_i32 h mem w1 after = some w2 ∧
      (∀ i, i < N.toNat → w1.cell (w0.cur_.toNat + i) = some (mem (ptr + i)) ∧
        w2.cell (w0.cur_.toNat + i) = some (mem (ptr + i))) ∧
      (∀ j, j < w0.cur_.toNat → w1.cell j = w0.cell j) ∧
      (∀ j, j < w1.cur_.toNat → w2.cell j = w1.cell j) := by
  have eb := extent_nonneg before hb
  have ea := extent_nonneg after ha
  obtain ⟨w0, w1, w2, h0, h1, h2, rest⟩ := dump_round_trip h mem before after ptr N hb ha hN
  obtain ⟨o0, -, -, -⟩ : w0.Ok ∧ True ∧ True ∧ True := by
    obtain ⟨w0', r0, g0, o0, -, -⟩ := run_spec h mem before {} Ok_fresh hb
    rw [h0] at g0
    cases g0
    exact ⟨o0, trivial, trivial, trivial⟩
  obtain ⟨i0, s0⟩ := run_i32_eq h mem before {} Ok_fresh hb (by
    show (0 : Int) + extent before ≤ sizeLimit
    omega)
  have hs0 : w0.size_ ≤ extent before := by
    have := s0 w0 h0
    have z : ({} : writer).size_ = 0 := rfl
    omega
  have i1 := writer.dump_i32_eq mem w0 ptr N o0 hN (by omega)
  have hs1 := writer.dump_size mem w0 w1 ptr N o0 hN h1
  obtain ⟨w1', g1, o1, -⟩ := writer.dump_spec mem w0 ptr N o0 hN
  rw [h1] at g1
  cases g1
  obtain ⟨i2, -⟩ := run_i32_eq h mem after w1 o1 ha (by omega)
  exact ⟨w0, w1, w2, by rw [i0, h0], by rw [i1, h1], by rw [i2, h2], rest⟩

/-- Witness of C13: three bytes dumped after an `int`, followed by an `align`, a
string that makes the buffer grow, and another `int`. -/
theorem C13_dump_round_trip_witness :
    ∃ w0 w1 w2, run_i32 ⟨true⟩ (fun a => a % 256) {} [.shl_int 1] = some w0 ∧
      writer.dump_i32 (fun a => a % 256) w0 1000 3 = some w1 ∧
      run_i32 ⟨true⟩ (fun a => a % 256) w1
        [.align 4, .shl_string (ascii "a name longer than the buffer"), .shl_int 2] = some w2 ∧
      (∀ i, i < (3 : Int).toNat →
        w1.cell (w0.cur_.toNat + i) = some ((fun a => a % 256) (1000 + i)) ∧
        w2.cell (w0.cur_.toNat + i) = some ((fun a => a % 256) (1000 + i))) ∧
      (∀ j, j < w0.cur_.toNat → w1.cell j = w0.cell j) ∧
      (∀ j, j < w1.cur_.toNat → w2.cell j = w1.cell j) :=
  C13_dump_round_trip ⟨true⟩ (fun a => a % 256) [.shl_int 1]
    [.align 4, .shl_string (ascii "a name longer than the buffer"), .shl_int 2] 1000 3
    (by decide) (by decide) (by decide) (by decide)

/-! ## C14: `align` -/

/-- C14 fails on the code: after one `int` the cursor is 4; `align(8)` returns
with the size raised to 8 and the cursor still 4, which is not a multiple of 8,
and the `int` appended next is stored at the offsets 4..7. -/
theorem C14_align_keeps_cursor :
    (run ⟨true⟩ (fun _ => 0) {} [.shl_int 1, .align 8]).map
      (fun w => (w.cur_, w.size_)) = some (4, 8) ∧
    ¬ (8 : Int) ∣ 4 ∧
    (run ⟨true⟩ (fun _ => 0) {} [.shl_int 1, .align 8, .shl_int 2]).map
      (fun w => (w.cell 4, w.cell 5, w.cell 6, w.cell 7, w.cell 8)) =
      some (some 2, some 0, some 0, some 0, none) := by
  decide

/-! ## C15: the move constructor -/

/-- C15 fails on the code: moving from a writer that holds one `int` gives the
new writer the four members of the source, but leaves the source with its
cursor at 4 instead of 0; the source is not in the state of a fresh writer, and
an `int` appended to it is stored outside its new allocation, where the same
append to a fresh writer returns. -/
theorem C15_move_keeps_cursor :
    (writer.shl_int ⟨true⟩ {} 1).map writer.move_ctor =
      some (⟨some [some 1, some 0, some 0, some 0, none, none, none], 4, 7, 4⟩,
        ⟨none, 0, 0, 4⟩) ∧
    (⟨none, 0, 0, 4⟩ : writer) ≠ {} ∧
    writer.shl_int ⟨true⟩ ⟨none, 0, 0, 4⟩ 7 = none ∧
    (writer.shl_int ⟨true⟩ {} 7).isSome = true := by
  decide

/-! ## C17: the growth policy -/

/-- With exact integers: `ensure_size(size)` keeps the allocation and only sets the
size when the requested size is below the capacity; when the requested size is
not below the capacity (equal to it or above it) and is `>= 0`, a writer whose
state satisfies the invariant reallocates, the new capacity is
`(size + 1) + (size + 1) / 2`, one and a half times `size + 1` rounded down, the
first `size_` cells are copied, and the cursor is kept. -/
theorem ensure_size_policy (w : writer) (size : Int) :
    (size < w.capacity_ → w.ensure_size size = some { w with size_ := size }) ∧
    (w.capacity_ ≤ size → 0 ≤ size → w.Ok →
      ∃ b1, w.ensure_size size =
          some ⟨some b1, size, (size + 1) + (size + 1) / 2, w.cur_⟩ ∧
        (b1.length : Int) = (size + 1) + (size + 1) / 2 ∧
        b1.take w.size_.toNat = (w.buf_.getD []).take w.size_.toNat ∧
        w.capacity_ < (size + 1) + (size + 1) / 2) := by
  constructor
  · intro hlt
    simp [writer.ensure_size, hlt]
  · intro hge h0 hw
    obtain ⟨buf, sz, cap, cur⟩ := w
    obtain ⟨hc0, hc1, hc2⟩ := hw
    simp only at hge hc0 hc1 hc2
    have hsh : (size + 1) >>> (1 : Nat) = (size + 1) / 2 := by
      rw [Int.shiftRight_eq_div_pow]
      norm_num
    have hcap : 0 ≤ (size + 1) + (size + 1) / 2 := by omega
    have hm : writer.malloc ((size + 1) + (size + 1) / 2) =
        some (List.replicate ((size + 1) + (size + 1) / 2).toNat none) := by
      unfold writer.malloc
      rw [if_neg (by omega)]
    have hadd : (size + 1) / 2 + (size + 1) = (size + 1) + (size + 1) / 2 := by ring
    cases buf with
    | none =>
      simp only at hc2
      refine ⟨List.replicate ((size + 1) + (size + 1) / 2).toNat none, ?_, ?_, ?_, ?_⟩
      · simp only [writer.ensure_size, if_neg (not_lt.mpr hge), hsh, hadd, hm]
      · simp only [List.length_replicate]
        omega
      · have : sz.toNat = 0 := by omega
        simp [this]
      · show cap < _
        omega
    | some b =>
      simp only at hc2
      have hcpy : writer.memcpy (List.replicate ((size + 1) + (size + 1) / 2).toNat none) b sz =
          some (b.take sz.toNat ++
            (List.replicate ((size + 1) + (size + 1) / 2).toNat none).drop sz.toNat) := by
        unfold writer.memcpy
        rw [if_pos]
        refine ⟨by omega, by omega, ?_⟩
        simp only [List.length_replicate]
        omega
      refine ⟨b.take sz.toNat ++
        (List.replicate ((size + 1) + (size + 1) / 2).toNat none).drop sz.toNat, ?_, ?_, ?_, ?_⟩
      · simp only [writer.ensure_size, if_neg (not_lt.mpr hge), hsh, hadd, hm, hcpy]
      · simp only [List.length_append, List.length_take, List.length_drop,
          List.length_replicate]
        omega
      · simp only [Option.getD_some]
        rw [List.take_append_of_le_length (by simp only [List.length_take]; omega)]
        rw [List.take_take]
        simp
      · show cap < _
        omega

/-- C17, as stated, fails: `ensure_size(4)` on a fresh writer reallocates to the
capacity 7, not to `4 + 4 / 2 = 6`; on the writer that results,
`ensure_size(7)` reallocates (to the capacity 12) although the requested size
does not exceed the capacity 7, while `ensure_size(6)` does not; and
`ensure_size(1431655765)` on a fresh writer computes a capacity that does not
fit an `int`: it returns with the capacity -2147483647 and no buffer. -/
theorem C17_capacity_counts_one_more :
    (writer.ensure_size_i32 {} 4).map (fun w => w.capacity_) = some 7 ∧
    (7 : Int) ≠ 4 + 4 / 2 ∧
    ((writer.ensure_size_i32 {} 4).bind fun w => w.ensure_size_i32 7).map
      (fun w => w.capacity_) = some 12 ∧
    ((writer.ensure_size_i32 {} 4).bind fun w => w.ensure_size_i32 6).map
      (fun w => w.capacity_) = some 7 ∧
    writer.ensure_size_i32 {} 1431655765 = some ⟨none, 1431655765, -2147483647, 0⟩ := by
  decide

/-- C17, amended: `ensure_size(size)`, computed with `int` of 32 bits, keeps the
allocation and only sets the size when the requested size is below the
capacity; when the requested size is not below the capacity (equal to it or
above it), is `>= 0` and is at most `sizeLimit`, a writer whose state satisfies
the invariant reallocates, the new capacity is `(size + 1) + (size + 1) / 2`,
one and a half times `size + 1` rounded down, which is an `int` above the old
capacity, the first `size_` cells are copied, and the cursor is kept. -/
theorem C17_growth_policy (w : writer) (size : Int) :
    (size < w.capacity_ → w.ensure_size_i32 size = some { w with size_ := size }) ∧
    (w.capacity_ ≤ size → 0 ≤ size → size ≤ sizeLimit → w.Ok →
      ∃ b1, w.ensure_size_i32 size =
          some ⟨some b1, size, (size + 1) + (size + 1) / 2, w.cur_⟩ ∧
        (b1.length : Int) = (size + 1) + (size + 1) / 2 ∧
        b1.take w.size_.toNat = (w.buf_.getD []).take w.size_.toNat ∧
        w.capacity_ < (size + 1) + (size + 1) / 2 ∧
        (size + 1) + (size + 1) / 2 ≤ 2147483647) := by
  constructor
  · intro hlt
    simp [writer.ensure_size_i32, hlt]
  · intro hge h0 hlim hw
    obtain ⟨b1, g1, g2, g3, g4⟩ := (ensure_size_policy w size).2 hge h0 hw
    refine ⟨b1, ?_, g2, g3, g4, ?_⟩
    · rw [writer.ensure_size_i32_eq w size h0 hlim]
      exact g1
    · unfold sizeLimit at hlim
      omega

/-- Witness of C17: a writer that holds one `int` (size 4, capacity 7), asked
for the size 5, which is below the capacity, and for the size 7, which is
not. -/
theorem C17_growth_policy_witness :
    (⟨some [some 1, some 0, some 0, some 0, none, none, none], 4, 7, 4⟩ :
        writer).ensure_size_i32 5 =
      some ⟨some [some 1, some 0, some 0, some 0, none, none, none], 5, 7, 4⟩ ∧
    ∃ b1, (⟨some [some 1, some 0, some 0, some 0, none, none, none], 4, 7, 4⟩ :
        writer).ensure_size_i32 7 = some ⟨some b1, 7, (7 + 1) + (7 + 1) / 2, 4⟩ ∧
      (b1.length : Int) = (7 + 1) + (7 + 1) / 2 ∧
      b1.take (4 : Int).toNat =
        [some 1, some 0, some 0, some 0, none, none, none].take (4 : Int).toNat ∧
      (7 : Int) < (7 + 1) + (7 + 1) / 2 ∧
      ((7 : Int) + 1) + (7 + 1) / 2 ≤ 2147483647 :=
  ⟨(C17_growth_policy ⟨some [some 1, some 0, some 0, some 0, none, none, none], 4, 7, 4⟩ 5).1
      (by decide),
    (C17_growth_policy ⟨some [some 1, some 0, some 0, some 0, none, none, none], 4, 7, 4⟩ 7).2
      (by decide) (by decide) (by decide) (by simp [writer.Ok])⟩

/-! ## C18: the bounds invariant -/

/-- C18: every sequence of append operations with sizes in range, applied to a
fresh writer, returns.  After at least one operation the writer has an
allocation whose length is the capacity, and `cursor <= size < capacity`.  In
the state reached, the next block of any operation (a growth by `n >= 0`
followed by stores of at most `n` bytes) finds, after the growth, the cursor
plus the number of bytes at most the size and the size below the capacity of
the allocation in use, so every store of the block is at an index below that
capacity, and the stores return. -/
theorem C18_bounds_invariant (h : Host) (mem : Nat → Nat) (ops : List Op)
    (hops : ∀ op ∈ ops, op.sized = true) :
    ∃ w, run h mem {} ops = some w ∧
      (ops ≠ [] → ∃ b, w.buf_ = some b ∧ (b.length : Int) = w.capacity_ ∧
        0 ≤ w.cur_ ∧ w.cur_ ≤ w.size_ ∧ w.size_ < w.capacity_) ∧
      ∀ (n : Int) (cs : List Nat), (cs.length : Int) ≤ n →
        ∃ w1 b1 w2, w.grow_size n = some w1 ∧ w1.buf_ = some b1 ∧
          (b1.length : Int) = w1.capacity_ ∧ w1.cur_ = w.cur_ ∧
          w1.cur_ + cs.length ≤ w1.size_ ∧ w1.size_ < w1.capacity_ ∧
          w1.putAll cs = some w2 := by
  obtain ⟨w, -, h1, h2, -, h4⟩ := run_spec h mem ops {} Ok_fresh hops
  refine ⟨w, h1, ?_, ?_⟩
  · intro hne
    have hsome := h4 hne
    obtain ⟨hc0, hc1, hc2⟩ := h2
    cases hb : w.buf_ with
    | none => rw [hb] at hsome; simp at hsome
    | some b =>
      rw [hb] at hc2
      simp only at hc2
      exact ⟨b, rfl, hc2.2.symm, hc0, hc1, hc2.1⟩
  · intro n cs hn
    obtain ⟨w1, b1, w2, -, g1, g2, g3, g4, g5, g6, g7, -, -, -, -⟩ :=
      writer.block_spec w n cs h2 hn
    exact ⟨w1, b1, w2, g1, g2, g3, g4, g5, g6, g7⟩

/-- Witness of C18: an `int`, an `align`, an empty `dump` and a string. -/
theorem C18_bounds_invariant_witness :
    ∃ w, run ⟨true⟩ (fun a => a % 256) {}
        [.shl_int 1, .align 8, .dump 0 0, .shl_string (ascii "Test")] = some w ∧
      (([.shl_int 1, .align 8, .dump 0 0, .shl_string (ascii "Test")] : List Op) ≠ [] →
        ∃ b, w.buf_ = some b ∧ (b.length : Int) = w.capacity_ ∧
          0 ≤ w.cur_ ∧ w.cur_ ≤ w.size_ ∧ w.size_ < w.capacity_) ∧
      ∀ (n : Int) (cs : List Nat), (cs.length : Int) ≤ n →
        ∃ w1 b1 w2, w.grow_size n = some w1 ∧ w1.buf_ = some b1 ∧
          (b1.length : Int) = w1.capacity_ ∧ w1.cur_ = w.cur_ ∧
          w1.cur_ + cs.length ≤ w1.size_ ∧ w1.size_ < w1.capacity_ ∧
          w1.putAll cs = some w2 :=
  C18_bounds_invariant ⟨true⟩ (fun a => a % 256)
    [.shl_int 1, .align 8, .dump 0 0, .shl_string (ascii "Test")] (by decide)

/-! ## Decimal renderings -/

theorem append_cons_inj_last {α : Type} {l₁ l₂ r₁ r₂ : List α} {c : α} (h₁ : c ∉ r₁)
    (h₂ : c ∉ r₂) (h : l₁ ++ c :: r₁ = l₂ ++ c :: r₂) : l₁ = l₂ ∧ r₁ = r₂ := by
  simp only [List.append_eq_append_iff, List.cons_eq_append_iff, List.cons_eq_cons] at h
  rcases h with (⟨a, rfl, ⟨rfl, h⟩ | ⟨d, rfl, rfl⟩⟩ | ⟨a, rfl, ⟨rfl, h⟩ | ⟨d, rfl, rfl⟩⟩)
  · simp_all
  · simp at h₁
  · simp_all
  · simp at h₂

theorem digitChar_toNat : ∀ m, m < 10 → (Nat.digitChar m).toNat = 48 + m := by
  decide

theorem toDigitsCore_append (fuel n : Nat) (ds : List Char) :
    Nat.toDigitsCore 10 fuel n ds = Nat.toDigitsCore 10 fuel n [] ++ ds := by
  induction fuel generalizing n ds with
  | zero => simp [Nat.toDigitsCore]
  | succ fuel ih =>
    unfold Nat.toDigitsCore
    simp only
    split
    · simp
    · rw [ih (n / 10) (Nat.digitChar (n % 10) :: ds), ih (n / 10) [Nat.digitChar (n % 10)]]
      simp

theorem decimalValue_append (l : List Nat) (c : Nat) :
    decimalValue (l ++ [c]) = 10 * decimalValue l + (c - 48) := by
  simp [decimalValue, List.foldl_append]

/-- The digits `Nat.repr` writes stand for the number, and each is one of
`0` .. `9`. -/
theorem toDigitsCore_value (fuel : Nat) : ∀ n, n < fuel →
    decimalValue ((Nat.toDigitsCore 10 fuel n []).map Char.toNat) = n ∧
    ∀ c ∈ (Nat.toDigitsCore 10 fuel n []).map Char.toNat, 48 ≤ c ∧ c ≤ 57 := by
  induction fuel with
  | zero => intro n h; omega
  | succ fuel ih =>
    intro n hn
    have hd := digitChar_toNat (n % 10) (Nat.mod_lt _ (by norm_num))
    unfold Nat.toDigitsCore
    simp only
    split
    · rename_i h0
      have hlt : n < 10 := by omega
      constructor
      · simp only [List.map_cons, List.map_nil, decimalValue, List.foldl_cons, List.foldl_nil, hd]
        omega
      · intro c hc
        simp only [List.map_cons, List.map_nil, List.mem_singleton] at hc
        omega
    · rename_i h0
      have hlt : n / 10 < fuel := by omega
      obtain ⟨h1, h2⟩ := ih (n / 10) hlt
      rw [toDigitsCore_append]
      constructor
      · rw [List.map_append, List.map_cons, List.map_nil, decimalValue_append, h1, hd]
        omega
      · intro c hc
        simp only [List.map_append, List.map_cons, List.map_nil, List.mem_append,
          List.mem_singleton] at hc
        rcases hc with hc | hc
        · exact h2 c hc
        · omega

theorem repr_value (m : Nat) : decimalValue (ascii (Nat.repr m)) = m ∧
    ∀ c ∈ ascii (Nat.repr m), 48 ≤ c ∧ c ≤ 57 := by
  have := toDigitsCore_value (m + 1) m (by omega)
  simpa [ascii, Nat.repr, Nat.toDigits, List.asString] using this

theorem sprintf_d_ofNat (m : Nat) : sprintf_d (Int.ofNat m) = ascii (Nat.repr m) := by
  simp [sprintf_d, toString, instToStringInt, instToStringNat]

theorem sprintf_d_negSucc (m : Nat) :
    sprintf_d (Int.negSucc m) = 45 :: ascii (Nat.repr (m + 1)) := by
  simp [sprintf_d, ascii, toString, instToStringInt, instToStringNat]

/-- The rendering of `%d` holds no bracket. -/
theorem sprintf_d_no_bracket (n : Int) : 91 ∉ sprintf_d n := by
  cases n with
  | ofNat m =>
    rw [sprintf_d_ofNat]
    intro hc
    have := (repr_value m).2 91 hc
    omega
  | negSucc m =>
    rw [sprintf_d_negSucc]
    intro hc
    simp only [List.mem_cons] at hc
    rcases hc with hc | hc
    · omega
    · have := (repr_value (m + 1)).2 91 hc
      omega

/-- Two integers with the same `%d` rendering are equal. -/
theorem sprintf_d_inj (a b : Int) (h : sprintf_d a = sprintf_d b) : a = b := by
  cases a with
  | ofNat m =>
    cases b with
    | ofNat k =>
      rw [sprintf_d_ofNat, sprintf_d_ofNat] at h
      have := congrArg decimalValue h
      rw [(repr_value m).1, (repr_value k).1] at this
      rw [this]
    | negSucc k =>
      rw [sprintf_d_ofNat, sprintf_d_negSucc] at h
      have : 45 ∈ ascii (Nat.repr m) := by rw [h]; simp
      have := (repr_value m).2 45 this
      omega
  | negSucc m =>
    cases b with
    | ofNat k =>
      rw [sprintf_d_ofNat, sprintf_d_negSucc] at h
      have : 45 ∈ ascii (Nat.repr k) := by rw [← h]; simp
      have := (repr_value k).2 45 this
      omega
    | negSucc k =>
      rw [sprintf_d_negSucc, sprintf_d_negSucc] at h
      have h' := (List.cons.inj h).2
      have := congrArg decimalValue h'
      rw [(repr_value (m + 1)).1, (repr_value (k + 1)).1] at this
      have : m = k := by omega
      rw [this]

/-! ## Names of built descriptors -/

theorem ArrayType_new_some (H : Heap) (d : Int) (e : Nat) (obj : TypeBase)
    (h : ArrayType_new H d e = some obj) :
    ∃ sub, H[e]? = some sub ∧
      obj = .ArrayType d e (sub.getName ++ (ascii "[" ++ sprintf_d d ++ ascii "]")) ∧
      obj.getName = sub.getName ++ 91 :: (sprintf_d d ++ [93]) := by
  simp only [ArrayType_new, Option.map_eq_some'] at h
  obtain ⟨sub, hs, rfl⟩ := h
  refine ⟨sub, hs, rfl, ?_⟩
  have e1 : ascii "[" = [91] := by decide
  have e2 : ascii "]" = [93] := by decide
  show c_str _ = _
  rw [e1, e2, c_str_eq_self]
  · simp
  · intro c hc
    simp only [List.mem_append, List.mem_singleton] at hc
    rcases hc with hc | (hc | hc) | hc
    · exact getName_ne_zero sub c hc
    · omega
    · exact sprintf_d_ne_zero d c hc
    · omega

theorem PointerType_new_some (H : Heap) (e : Nat) (obj : TypeBase)
    (h : PointerType_new H e = some obj) :
    ∃ sub, H[e]? = some sub ∧ obj = .PointerType e (ascii "*" ++ sub.getName) ∧
      obj.getName = 42 :: sub.getName := by
  simp only [PointerType_new, Option.map_eq_some'] at h
  obtain ⟨sub, hs, rfl⟩ := h
  refine ⟨sub, hs, rfl, ?_⟩
  have e1 : ascii "*" = [42] := by decide
  show c_str _ = _
  rw [e1, c_str_eq_self]
  · simp
  · intro c hc
    simp only [List.singleton_append, List.mem_cons] at hc
    rcases hc with hc | hc
    · omega
    · exact getName_ne_zero sub c hc

theorem numeric_name_facts : ∀ t ∈ numericKinds,
    (TypeBase.NumericType t).getName ≠ [] ∧
    (TypeBase.NumericType t).getName.head? ≠ some 42 ∧
    (TypeBase.NumericType t).getName.getLast? ≠ some 93 := by
  decide

theorem numeric_name_unique : ∀ t1 ∈ numericKinds, ∀ t2 ∈ numericKinds,
    (TypeBase.NumericType t1).getName = (TypeBase.NumericType t2).getName →
    NumericType_size t1 = NumericType_size t2 ∧
    kindOf (.NumericType t1) = kindOf (.NumericType t2) := by
  decide

theorem getLast?_bracket (a r : List Nat) : (a ++ 91 :: (r ++ [93])).getLast? = some 93 := by
  have e : a ++ 91 :: (r ++ [93]) = (a ++ 91 :: r) ++ [93] := by simp
  rw [e, List.getLast?_concat]

/-- The name of a descriptor built from numerics and arrays is not empty and
does not start with `*`. -/
theorem Flat_name_head (H : Heap) (p : Nat) (hp : Flat H p) :
    nameAt H p ≠ [] ∧ (nameAt H p).head? ≠ some 42 := by
  induction hp with
  | numeric ht hget =>
    rw [nameAt_eq H _ _ hget]
    exact ⟨(numeric_name_facts _ ht).1, (numeric_name_facts _ ht).2.1⟩
  | array he hnew hget ih =>
    obtain ⟨sub, hs, -, hname⟩ := ArrayType_new_some H _ _ _ hnew
    rw [nameAt_eq H _ _ hs] at ih
    rw [nameAt_eq H _ _ hget, hname]
    refine ⟨by simp [ih.1], ?_⟩
    rw [List.head?_append_of_ne_nil _ ih.1]
    exact ih.2

/-- Among the descriptors built from numerics and arrays the canonical name
fixes the kind and the size. -/
theorem Flat_unique (H : Heap) (p : Nat) (hp : Flat H p) :
    ∀ q, Flat H q → nameAt H p = nameAt H q →
      (∃ a b, H[p]? = some a ∧ H[q]? = some b ∧ kindOf a = kindOf b) ∧
      ∃ fuel s, getSize H fuel p = some s ∧ getSize H fuel q = some s := by
  induction hp with
  | @numeric p t1 ht1 hget1 =>
    intro q hq hname
    cases hq with
    | @numeric _ t2 ht2 hget2 =>
      rw [nameAt_eq H _ _ hget1, nameAt_eq H _ _ hget2] at hname
      obtain ⟨h1, h2⟩ := numeric_name_unique t1 ht1 t2 ht2 hname
      refine ⟨⟨_, _, hget1, hget2, h2⟩, 1, NumericType_size t1, ?_, ?_⟩
      · simp [getSize, hget1]
      · simp [getSize, hget2, h1]
    | @array _ e2 d2 obj2 he2 hnew2 hget2 =>
      obtain ⟨sub2, hs2, -, hn2⟩ := ArrayType_new_some H _ _ _ hnew2
      rw [nameAt_eq H _ _ hget1, nameAt_eq H _ _ hget2, hn2] at hname
      have := (numeric_name_facts t1 ht1).2.2
      rw [hname, getLast?_bracket] at this
      exact absurd rfl this
  | @array p e1 d1 obj1 he1 hnew1 hget1 ih =>
    intro q hq hname
    obtain ⟨sub1, hs1, ho1, hn1⟩ := ArrayType_new_some H _ _ _ hnew1
    cases hq with
    | @numeric _ t2 ht2 hget2 =>
      rw [nameAt_eq H _ _ hget1, nameAt_eq H _ _ hget2, hn1] at hname
      have := (numeric_name_facts t2 ht2).2.2
      rw [← hname, getLast?_bracket] at this
      exact absurd rfl this
    | @array _ e2 d2 obj2 he2 hnew2 hget2 =>
      obtain ⟨sub2, hs2, ho2, hn2⟩ := ArrayType_new_some H _ _ _ hnew2
      rw [nameAt_eq H _ _ hget1, nameAt_eq H _ _ hget2, hn1, hn2] at hname
      have hb1 : 91 ∉ sprintf_d d1 ++ [93] := by
        simp only [List.mem_append, List.mem_singleton, not_or]
        exact ⟨sprintf_d_no_bracket d1, by omega⟩
      have hb2 : 91 ∉ sprintf_d d2 ++ [93] := by
        simp only [List.mem_append, List.mem_singleton, not_or]
        exact ⟨sprintf_d_no_bracket d2, by omega⟩
      obtain ⟨hsub, hr⟩ := append_cons_inj_last hb1 hb2 hname
      have hd : d1 = d2 := sprintf_d_inj d1 d2 (List.append_cancel_right hr)
      obtain ⟨-, fuel, s, g1, g2⟩ := ih e2 he2 (by
        rw [nameAt_eq H _ _ hs1, nameAt_eq H _ _ hs2]; exact hsub)
      refine ⟨⟨_, _, hget1, hget2, ?_⟩, fuel + 1, wrap_int (s * d1), ?_, ?_⟩
      · rw [ho1, ho2]
        rfl
      · rw [ho1] at hget1
        simp [getSize, hget1, g1]
      · rw [ho2] at hget2
        simp [getSize, hget2, g2, hd]

theorem pointer_facts (H : Heap) (p e : Nat) (obj : TypeBase)
    (hnew : PointerType_new H e = some obj) (hget : H[p]? = some obj) :
    (nameAt H p).head? = some 42 ∧ kindOf obj = Type_.POINTER.toNat ∧
      getSize H 1 p = some sizeof_voidp := by
  obtain ⟨sub, hs, ho, hn⟩ := PointerType_new_some H _ _ hnew
  refine ⟨by rw [nameAt_eq H _ _ hget, hn]; rfl,
    by rw [ho]; simp only [kindOf, TypeBase.type]; decide, ?_⟩
  rw [ho] at hget
  simp [getSize, hget]

/-! ## C11: what the canonical name identifies -/

/-- C11, as stated, fails: in `clashHeap` the array of two pointers to `int32`
(descriptor 2) and the pointer to an array of two `int32` (descriptor 4) are
both built by the constructors and have the same canonical name `*int32[2]`,
but the first is an array of size 16 and the second a pointer of size 8. -/
theorem C11_array_and_pointer_share_name :
    Built clashHeap 2 ∧ Built clashHeap 4 ∧
    nameAt clashHeap 2 = ascii "*int32[2]" ∧ nameAt clashHeap 4 = ascii "*int32[2]" ∧
    clashHeap[2]?.map kindOf = some Type_.ARRAY.toNat ∧
    clashHeap[4]?.map kindOf = some Type_.POINTER.toNat ∧
    getSize clashHeap 3 2 = some 16 ∧ getSize clashHeap 3 4 = some 8 := by
  have b0 : Built clashHeap 0 :=
    Built.numeric (by decide : Type_.INT32 ∈ numericKinds) (by decide)
  have b1 : Built clashHeap 1 :=
    Built.pointer b0 (by decide : PointerType_new clashHeap 0 =
      some (.PointerType 0 (ascii "*int32"))) (by decide)
  have b2 : Built clashHeap 2 :=
    Built.array b1 (by decide : ArrayType_new clashHeap 2 1 =
      some (.ArrayType 2 1 (ascii "*int32[2]"))) (by decide)
  have b3 : Built clashHeap 3 :=
    Built.array b0 (by decide : ArrayType_new clashHeap 2 0 =
      some (.ArrayType 2 0 (ascii "int32[2]"))) (by decide)
  have b4 : Built clashHeap 4 :=
    Built.pointer b3 (by decide : PointerType_new clashHeap 3 =
      some (.PointerType 3 (ascii "*int32[2]"))) (by decide)
  exact ⟨b2, b4, by decide, by decide, by decide, by decide, by decide, by decide⟩

/-- C11, amended: for any two descriptors built only by the constructors of
`NumericType`, `ArrayType` and `PointerType`, neither of them an array over a
pointer (each is a numeric, an array whose nested elements are arrays and
numerics, or a pointer to any built descriptor), equal canonical names imply
the same outermost kind, signedness ignored, and the same `getSize()`. -/
theorem C11_name_fixes_kind_and_size (H : Heap) (p q : Nat) (hp : Plain H p)
    (hq : Plain H q) (hname : nameAt H p = nameAt H q) :
    (∃ a b, H[p]? = some a ∧ H[q]? = some b ∧ kindOf a = kindOf b) ∧
    ∃ fuel s, getSize H fuel p = some s ∧ getSize H fuel q = some s := by
  cases hp with
  | flat fp =>
    cases hq with
    | flat fq => exact Flat_unique H p fp q fq hname
    | pointer _ hnew hget =>
      have h1 := (Flat_name_head H p fp).2
      have h2 := (pointer_facts H q _ _ hnew hget).1
      rw [hname, h2] at h1
      exact absurd rfl h1
  | pointer _ hnew hget =>
    cases hq with
    | flat fq =>
      have h1 := (Flat_name_head H q fq).2
      have h2 := (pointer_facts H p _ _ hnew hget).1
      rw [← hname, h2] at h1
      exact absurd rfl h1
    | pointer _ hnew2 hget2 =>
      obtain ⟨-, k1, s1⟩ := pointer_facts H p _ _ hnew hget
      obtain ⟨-, k2, s2⟩ := pointer_facts H q _ _ hnew2 hget2
      exact ⟨⟨_, _, hget, hget2, by rw [k1, k2]⟩, 1, _, s1, s2⟩

/-- Witness of C11: the two arrays of `twinHeap`, one over `INT32` and one over
`UINT32`, both named `int32[10]`. -/
theorem C11_name_fixes_kind_and_size_witness :
    (∃ a b, twinHeap[2]? = some a ∧ twinHeap[3]? = some b ∧ kindOf a = kindOf b) ∧
    ∃ fuel s, getSize twinHeap fuel 2 = some s ∧ getSize twinHeap fuel 3 = some s :=
  C11_name_fixes_kind_and_size twinHeap 2 3
    (Plain.flat (Flat.array
      (Flat.numeric (by decide : Type_.INT32 ∈ numericKinds) (by decide))
      (by decide : ArrayType_new twinHeap 10 0 = some (.ArrayType 10 0 (ascii "int32[10]")))
      (by decide)))
    (Plain.flat (Flat.array
      (Flat.numeric (by decide : Type_.UINT32 ∈ numericKinds) (by decide))
      (by decide : ArrayType_new twinHeap 10 1 = some (.ArrayType 10 1 (ascii "int32[10]")))
      (by decide)))
    (by decide)

/-! ## C16, C19, C20: the `STRUCT` branch again -/

/-- C16 fails on the code: for the struct `Pair`, whose two members have
distinct descriptors of the same name `int32`, the walk has no defined result
with any amount of fuel and `writeSchema` emits nothing, so no descriptor is
kept for the name; the walk stops in the `STRUCT` branch before a member is
visited. -/
theorem C16_pair_walk_undefined (h : Host) (fuel : Nat) (w : writer) :
    nameAt pairHeap 0 = nameAt pairHeap 1 ∧
    recurseTypes pairHeap fuel [2] [] = none ∧
    writeSchema h pairHeap fuel w [2] [] = none := by
  refine ⟨by decide, ?_, ?_⟩ <;> cases fuel <;> rfl

/-- C19 fails on the code: for the struct `Vec3`, whose record would refer to
the name `float32[3]`, the walk from the struct has no defined result with any
amount of fuel, so there is no table in which that name, or the name `float32`
the array refers to, could be a key. -/
theorem C19_vec_walk_undefined (fuel : Nat) :
    recurseTypes vecHeap fuel [2] [] = none ∧ recurseType vecHeap fuel 2 [] = none := by
  cases fuel <;> exact ⟨rfl, rfl⟩

/-- C20 fails on the code: for the roots `Test` and `int32` of `testHeap`, in
either order, `writeSchema` has no defined result on any host, for any writer
and any amount of fuel, so there are no two outputs that could be identical. -/
theorem C20_permuted_roots_undefined (h : Host) (fuel : Nat) (w : writer) :
    writeSchema h testHeap fuel w [3, 0] [] = none ∧
    writeSchema h testHeap fuel w [0, 3] [] = none := by
  rcases fuel with _ | fuel
  · exact ⟨rfl, rfl⟩
  · exact ⟨rfl, rfl⟩

/-! ## The table on walkable descriptors: first entry kept, closure, root order -/

/-- A descriptor whose name is already a key is not entered: the walk returns
the map as it is. -/
theorem recurseType_visited (H : Heap) (fuel p : Nat) (v : map Nat) (obj : TypeBase)
    (hp : H[p]? = some obj) (hv : map_contains v obj.getName = true) :
    recurseType H (fuel + 1) p v = some v := by
  simp [recurseType, hp, hv]

/-- A table has one entry for a name. -/
theorem Table_key_unique {β : Type} (v : map β) (hs : map_sorted v) (e1 e2 : List Nat × β)
    (h1 : e1 ∈ v) (h2 : e2 ∈ v) (hk : e1.1 = e2.1) : e1 = e2 := by
  induction v with
  | nil => simp at h1
  | cons x rest ih =>
    unfold map_sorted at hs ih
    rw [List.pairwise_cons] at hs
    simp only [List.mem_cons] at h1 h2
    rcases h1 with h1 | h1 <;> rcases h2 with h2 | h2
    · rw [h1, h2]
    · have := hs.1 e2 h2
      rw [← h1, hk, strLt_irrefl] at this
      exact absurd this Bool.false_ne_true
    · have := hs.1 e1 h1
      rw [← h2, ← hk, strLt_irrefl] at this
      exact absurd this Bool.false_ne_true
    · exact ih hs.2 h1 h2

/-- The table the walk builds from an empty map on walkable descriptors: every
entry points to a descriptor reachable from the roots and named by the key, and
the name of the element or target of that descriptor is a key as well. -/
theorem recurseTypes_closed (H : Heap) (fuel : Nat) (hfuel : H.length < fuel)
    (roots : List Nat) (hW : WalkableFrom H roots) (tbl : map Nat)
    (htbl : recurseTypes H fuel roots [] = some tbl) :
    Table H tbl ∧ (∀ r ∈ roots, map_contains tbl (nameAt H r) = true) ∧
      ∀ e ∈ tbl, Reachable H roots e.2 ∧ closedIn H tbl e.2 ∧ nameAt H e.2 = e.1 := by
  obtain ⟨tbl1, g1, g2, -, g4, g5⟩ := recurseTypes_spec H fuel hfuel roots [] hW (Table_nil H)
  rw [htbl] at g1
  cases g1
  refine ⟨g2, g4, ?_⟩
  intro e he
  rcases g5 e he with hnil | ⟨h1, h2⟩
  · simp at hnil
  · obtain ⟨obj, ho, hn⟩ := g2.2 e he
    exact ⟨h1, h2, by rw [nameAt_eq H _ _ ho, hn]⟩

/-- When same-named reachable descriptors have same-named elements or targets,
the name of every reachable descriptor is a key of the table. -/
theorem reachable_key (H : Heap) (fuel : Nat) (hfuel : H.length < fuel) (roots : List Nat)
    (hW : WalkableFrom H roots) (tbl : map Nat)
    (htbl : recurseTypes H fuel roots [] = some tbl)
    (hsame : ∀ p q, Reachable H roots p → Reachable H roots q →
      nameAt H p = nameAt H q → childName H p = childName H q) :
    ∀ d, Reachable H roots d → map_contains tbl (nameAt H d) = true := by
  obtain ⟨hT, hroots, hent⟩ := recurseTypes_closed H fuel hfuel roots hW tbl htbl
  have step : ∀ p s obj, Reachable H roots p → H[p]? = some obj → child obj = some s →
      map_contains tbl (nameAt H p) = true → map_contains tbl (nameAt H s) = true := by
    intro p s obj hp ho hc hk
    obtain ⟨e, he, hek⟩ := (map_contains_iff tbl _).mp hk
    obtain ⟨hreach, hclosed, hname⟩ := hent e he
    have hcn := hsame e.2 p hreach hp (by rw [hname, hek])
    have hp' : childName H p = some (nameAt H s) := by
      simp [childName, ho, hc]
    rw [hp'] at hcn
    simp only [childName, Option.map_eq_some', Option.bind_eq_some] at hcn
    obtain ⟨s1, ⟨obj1, ho1, hc1⟩, hs1⟩ := hcn
    have := hclosed obj1 s1 ho1 hc1
    rw [hs1] at this
    exact this
  intro d hd
  induction hd with
  | root hmem => exact hroots _ hmem
  | element hp ho ih => exact step _ _ _ hp ho rfl ih
  | target hp ho ih => exact step _ _ _ hp ho rfl ih
  | member hp ho _ _ =>
    obtain ⟨obj, ho1, hwk⟩ := hW _ hp
    rw [ho] at ho1
    cases ho1
    simp [walkable] at hwk

/-- First kept: a walkable descriptor whose name is not yet a key enters the
table under its name as the only entry of that name, and the walk from a later
descriptor of the same name returns the table as it is. -/
theorem recurseType_keeps_first (H : Heap) (fuel p q : Nat) (v : map Nat)
    (hW : WalkableFrom H [p]) (hT : Table H v) (hfuel : unvisited H v < fuel)
    (hc : map_contains v (nameAt H p) = false) (objq : TypeBase) (hq : H[q]? = some objq)
    (hname : nameAt H q = nameAt H p) :
    ∃ v1, recurseType H fuel p v = some v1 ∧ Table H v1 ∧ (nameAt H p, p) ∈ v1 ∧
      (∀ e ∈ v1, e.1 = nameAt H p → e = (nameAt H p, p)) ∧
      ∀ fuel1, recurseType H (fuel1 + 1) q v1 = some v1 := by
  obtain ⟨v1, h1, hT1, -, -, -⟩ := recurseType_spec H fuel p v hW hT hfuel
  have hmem : (nameAt H p, p) ∈ v1 := by
    cases fuel with
    | zero => omega
    | succ fuel =>
      obtain ⟨obj, hget, hw⟩ := hW p (Reachable.root (by simp))
      have hn : nameAt H p = obj.getName := nameAt_eq H p _ hget
      rw [hn] at hc ⊢
      rcases recurseType_step H fuel p v obj hget hw hc with ⟨-, hr⟩ | ⟨s, hch, -, hr⟩
      · rw [hr] at h1
        cases h1
        exact mem_map_assign_self v _ p
      · have hTa : Table H (map_assign v obj.getName p) := by
          refine ⟨map_sorted_assign v _ _ hT.1, ?_⟩
          intro e he
          rcases mem_of_mem_map_assign v _ _ e he with h | h
          · rw [h]; exact ⟨obj, hget, rfl⟩
          · exact hT.2 e h
        have hlt := unvisited_assign_lt H v obj.getName p
          (List.mem_map.mpr ⟨obj, List.getElem?_mem hget, rfl⟩) hc
        obtain ⟨v2, g1, -, g3, -, -⟩ := recurseType_spec H fuel s (map_assign v obj.getName p)
          (WalkableFrom_child H p s obj hget hch hW) hTa (by omega)
        rw [hr, g1] at h1
        cases h1
        exact g3 _ (mem_map_assign_self v _ p)
  refine ⟨v1, h1, hT1, hmem, ?_, ?_⟩
  · intro e he hk
    exact Table_key_unique v1 hT1.1 e _ he hmem hk
  · intro fuel1
    apply recurseType_visited H fuel1 q v1 objq hq
    rw [← nameAt_eq H q objq hq, hname]
    exact (map_contains_iff v1 _).mpr ⟨_, hmem, rfl⟩

/-- The roots are walked in input order: the entry under the name of the first
root points to the first root. -/
theorem recurseTypes_first_root (H : Heap) (fuel : Nat) (hfuel : H.length < fuel) (r : Nat)
    (rest : List Nat) (hW : WalkableFrom H (r :: rest)) :
    ∃ tbl, recurseTypes H fuel (r :: rest) [] = some tbl ∧ Table H tbl ∧
      ∀ e ∈ tbl, e.1 = nameAt H r → e = (nameAt H r, r) := by
  have hroot : Reachable H (r :: rest) r := Reachable.root (by simp)
  obtain ⟨obj, hget, -⟩ := hW r hroot
  have hW1 : WalkableFrom H [r] := WalkableFrom_mono H (r :: rest) [r]
    (fun x hx => by
      simp only [List.mem_singleton] at hx
      rw [hx]
      exact hroot) hW
  have hW2 : WalkableFrom H rest := WalkableFrom_mono H (r :: rest) rest
    (fun x hx => Reachable.root (by simp [hx])) hW
  obtain ⟨v1, g1, gT, gmem, -, -⟩ := recurseType_keeps_first H fuel r r [] hW1 (Table_nil H)
    (by have := unvisited_le H []; omega) (by simp [map_contains]) obj hget rfl
  obtain ⟨tbl, t1, tT, tsub, -, -⟩ := recurseTypes_spec H fuel hfuel rest v1 hW2 gT
  refine ⟨tbl, ?_, tT, ?_⟩
  · simp only [recurseTypes, List.foldlM_cons, g1, Option.bind_eq_bind, Option.some_bind]
      at t1 ⊢
    exact t1
  · intro e he hk
    exact Table_key_unique tbl tT.1 e _ he (tsub _ gmem) hk

/-- The two descriptors of `clashHeap` named `*int32[2]`, as roots in either
order: the table has one entry of that name, which points to the root that came
first, and the record written under the name is the record of that root. -/
theorem first_of_clash_kept :
    recurseTypes clashHeap 6 [2, 4] [] =
      some [(ascii "*int32", 1), (ascii "*int32[2]", 2), (ascii "int32", 0)] ∧
    recurseTypes clashHeap 6 [4, 2] [] =
      some [(ascii "*int32[2]", 4), (ascii "int32", 0), (ascii "int32[2]", 3)] := by
  constructor <;> decide

/-- Two lists in strictly increasing key order with the same members are
equal. -/
theorem sorted_ext (l1 l2 : List (List Nat))
    (h1 : l1.Pairwise (fun a b => strLt a b = true))
    (h2 : l2.Pairwise (fun a b => strLt a b = true)) (hm : ∀ k, k ∈ l1 ↔ k ∈ l2) :
    l1 = l2 := by
  induction l1 generalizing l2 with
  | nil =>
    cases l2 with
    | nil => rfl
    | cons b t2 => exact absurd ((hm b).mpr (by simp)) (by simp)
  | cons a t1 ih =>
    cases l2 with
    | nil => exact absurd ((hm a).mp (by simp)) (by simp)
    | cons b t2 =>
      rw [List.pairwise_cons] at h1 h2
      have hab : a = b := by
        by_contra hne
        have ha : a ∈ t2 := by
          have := (hm a).mp (by simp)
          simp only [List.mem_cons] at this
          rcases this with h | h
          · exact absurd h hne
          · exact h
        have hb : b ∈ t1 := by
          have := (hm b).mpr (by simp)
          simp only [List.mem_cons] at this
          rcases this with h | h
          · exact absurd h.symm hne
          · exact h
        have e1 := h2.1 a ha
        have e2 := h1.1 b hb
        rw [strLt_asymm e1] at e2
        exact absurd e2 Bool.false_ne_true
      subst hab
      congr 1
      apply ih t2 h1.2 h2.2
      intro k
      constructor
      · intro hk
        have := (hm k).mp (by simp [hk])
        simp only [List.mem_cons] at this
        rcases this with h | h
        · have := h1.1 k hk
          rw [h, strLt_irrefl] at this
          exact absurd this Bool.false_ne_true
        · exact h
      · intro hk
        have := (hm k).mpr (by simp [hk])
        simp only [List.mem_cons] at this
        rcases this with h | h
        · have := h2.1 k hk
          rw [h, strLt_irrefl] at this
          exact absurd this Bool.false_ne_true
        · exact h

theorem map_congr_keys {β γ : Type} (f : List Nat × β → γ) (l1 l2 : map β)
    (hk : l1.map Prod.fst = l2.map Prod.fst)
    (hf : ∀ e1 ∈ l1, ∀ e2 ∈ l2, e1.1 = e2.1 → f e1 = f e2) : l1.map f = l2.map f := by
  induction l1 generalizing l2 with
  | nil =>
    cases l2 with
    | nil => rfl
    | cons b t => simp at hk
  | cons a t1 ih =>
    cases l2 with
    | nil => simp at hk
    | cons b t2 =>
      simp only [List.map_cons, List.cons.injEq] at hk ⊢
      exact ⟨hf a (by simp) b (by simp) hk.1,
        ih t2 hk.2 (fun e1 h1 e2 h2 => hf e1 (by simp [h1]) e2 (by simp [h2]))⟩

theorem idsFrom_congr (i : Int) (l1 l2 : map Nat) (hk : l1.map Prod.fst = l2.map Prod.fst) :
    idsFrom i l1 = idsFrom i l2 := by
  induction l1 generalizing l2 i with
  | nil =>
    cases l2 with
    | nil => rfl
    | cons b t => simp at hk
  | cons a t1 ih =>
    cases l2 with
    | nil => simp at hk
    | cons b t2 =>
      simp only [List.map_cons, List.cons.injEq] at hk
      simp only [idsFrom, hk.1, ih (i + 1) t2 hk.2]

/-- Order independence on walkable descriptors: when same-named reachable
descriptors have the same record and same-named elements or targets, two root
lists with the same members give `writeSchema` the same keys, the same bytes
and the same ids. -/
theorem writeSchema_order_independent (h : Host) (H : Heap) (fuel : Nat)
    (hfuel : H.length < fuel) (w : writer) (hw : w.Ok) (roots1 roots2 : List Nat)
    (hroots : ∀ r, r ∈ roots1 ↔ r ∈ roots2) (hW : WalkableFrom H roots1)
    (hsame : ∀ p q, Reachable H roots1 p → Reachable H roots1 q →
      nameAt H p = nameAt H q →
      childName H p = childName H q ∧ wire_entry h H (nameAt H p, p) =
        wire_entry h H (nameAt H q, q)) :
    ∃ w1 tbl1 w2 tbl2, writeSchema h H fuel w roots1 [] = some (w1, tbl1) ∧
      writeSchema h H fuel w roots2 [] = some (w2, tbl2) ∧
      tbl1.map Prod.fst = tbl2.map Prod.fst ∧ w1.bytes = w2.bytes ∧
      typeIdMap tbl1 = typeIdMap tbl2 := by
  have r12 : ∀ q, Reachable H roots2 q → Reachable H roots1 q :=
    fun q hq => Reachable_mono H roots1 roots2
      (fun r hr => Reachable.root ((hroots r).mpr hr)) q hq
  have r21 : ∀ q, Reachable H roots1 q → Reachable H roots2 q :=
    fun q hq => Reachable_mono H roots2 roots1
      (fun r hr => Reachable.root ((hroots r).mp hr)) q hq
  have hW2 : WalkableFrom H roots2 := fun q hq => hW q (r12 q hq)
  obtain ⟨w1, tbl1, a1, a2, -, a4⟩ := writeSchema_spec h H fuel hfuel w hw roots1 hW
  obtain ⟨w2, tbl2, b1, b2, -, b4⟩ := writeSchema_spec h H fuel hfuel w hw roots2 hW2
  obtain ⟨hT1, -, hent1⟩ := recurseTypes_closed H fuel hfuel roots1 hW tbl1 a2
  obtain ⟨hT2, -, hent2⟩ := recurseTypes_closed H fuel hfuel roots2 hW2 tbl2 b2
  have key1 := reachable_key H fuel hfuel roots1 hW tbl1 a2
    (fun p q hp hq hn => (hsame p q hp hq hn).1)
  have key2 := reachable_key H fuel hfuel roots2 hW2 tbl2 b2
    (fun p q hp hq hn => (hsame p q (r12 p hp) (r12 q hq) hn).1)
  have hkeys : tbl1.map Prod.fst = tbl2.map Prod.fst := by
    apply sorted_ext
    · exact List.pairwise_map.mpr hT1.1
    · exact List.pairwise_map.mpr hT2.1
    · intro k
      simp only [List.mem_map]
      constructor
      · rintro ⟨e, he, rfl⟩
        obtain ⟨hr, -, hn⟩ := hent1 e he
        have := key2 e.2 (r21 _ hr)
        rw [hn] at this
        obtain ⟨e2, he2, hk2⟩ := (map_contains_iff tbl2 _).mp this
        exact ⟨e2, he2, hk2⟩
      · rintro ⟨e, he, rfl⟩
        obtain ⟨hr, -, hn⟩ := hent2 e he
        have := key1 e.2 (r12 _ hr)
        rw [hn] at this
        obtain ⟨e1, he1, hk1⟩ := (map_contains_iff tbl1 _).mp this
        exact ⟨e1, he1, hk1⟩
  have hrec : tbl1.map (wire_entry h H) = tbl2.map (wire_entry h H) := by
    apply map_congr_keys _ _ _ hkeys
    intro e1 he1 e2 he2 hk
    obtain ⟨hr1, -, hn1⟩ := hent1 e1 he1
    obtain ⟨hr2, -, hn2⟩ := hent2 e2 he2
    have := (hsame e1.2 e2.2 hr1 (r12 _ hr2) (by rw [hn1, hn2, hk])).2
    simpa [wire_entry] using this
  have hlen : tbl1.length = tbl2.length := by
    have := congrArg List.length hkeys
    simpa using this
  refine ⟨w1, tbl1, w2, tbl2, a1, b1, hkeys, ?_, ?_⟩
  · rw [a4, b4, wire_schema, wire_schema, hrec, hlen]
  · rw [typeIdMap_eq tbl1 hT1.1, typeIdMap_eq tbl2 hT2.1]
    exact idsFrom_congr 0 tbl1 tbl2 hkeys

end soh.save
